import Mathlib

/-!
Verification of the discrete-time preemptive task-scheduling simulator
(EDF / RMS policies).  The definitions below are a shallow embedding of
`src/scheduler.py` (core engine) and of the independent CLI engine in
`src/main.py`.  Python integers are modelled as `Int`; simulated time is a
`Nat` (it starts at 0 and only ever increments by 1).  The `while
self.time < max_time` loop of `Scheduler.run` advances `time` by exactly 1
per iteration starting from 0, so it performs exactly `max_time` iterations
for a non-negative bound; `run` below therefore iterates the one-unit `step`
`max_time` times.

Python's `heapq` stores tuples `(priority, arrival_time, counter, task)` and
`heappop` returns the least tuple.  Because every insertion gets a fresh
strictly increasing counter (proved below), the least tuple is unique, so the
heap is faithfully modelled by a list of entries together with a function
extracting the least entry under the lexicographic order on
(priority, arrival, counter).  A relational semantics (`PopR`, `stepR`) that
lets extraction pick any minimal element is also given, and is proved to
produce the same observable results, justifying this representation.
-/

namespace RTScheduler

/-- Mutable task record of `scheduler.py`'s `Task.__init__`.
`start_time` and `completion_time` use the source's `-1` sentinel. -/
structure Task where
  task_id : String
  arrival_time : Int
  burst_time : Int
  remaining_time : Int
  deadline : Int
  period : Int
  absolute_deadline : Int
  start_time : Int
  completion_time : Int
  missed_deadline : Bool
deriving DecidableEq

/-- Default task used for (unreachable) out-of-range list lookups. -/
def dTask : Task :=
  ⟨"", 0, 0, 0, 0, 0, 0, -1, -1, false⟩

/-- Constructor arguments of `Task.__init__(task_id, arrival_time,
burst_time, deadline, period=0)`. -/
structure TaskSpec where
  id : String
  arrival : Int
  burst : Int
  dl : Int
  per : Int
deriving DecidableEq

/-- `Task.__init__` of `scheduler.py`: assigns the fields, derives
`remaining_time = burst_time` and `absolute_deadline = arrival + deadline`,
and performs no validation whatsoever. -/
def mkTask (sp : TaskSpec) : Task :=
  ⟨sp.id, sp.arrival, sp.burst, sp.burst, sp.dl, sp.per,
    sp.arrival + sp.dl, -1, -1, false⟩

/-- The error kind the specification document postulates for construction. -/
inductive TaskError where
  | InvalidTask
deriving DecidableEq

/-- Modelled from the spec: the validating constructor the specification
describes ("Fails with `InvalidTask` if burst time ≤ 0, relative deadline
≤ 0, or arrival time < 0").  No such validation exists in `src`; this
definition exists to be compared with the actual constructor `mkTask`. -/
def mkTaskChecked (sp : TaskSpec) : Except TaskError Task :=
  if sp.burst ≤ 0 ∨ sp.dl ≤ 0 ∨ sp.arrival < 0 then
    Except.error TaskError.InvalidTask
  else
    Except.ok (mkTask sp)

/-- The two scheduling policies (`EDFScheduler` / `RMSScheduler` subclasses). -/
inductive Policy where
  | EDF
  | RMS
deriving DecidableEq

/-- Priority key pushed on the heap by `add_task`: the absolute deadline for
EDF; for RMS `task.period if task.period > 0 else task.deadline`. -/
def priorityKey : Policy → Task → Int
  | Policy.EDF, t => t.absolute_deadline
  | Policy.RMS, t => if t.period > 0 then t.period else t.deadline

/-- A ready-queue entry `(priority, arrival_time, counter, task)`; the task
object is represented by its index `idx` into the scheduler's task list. -/
structure QEntry where
  key : Int
  arr : Int
  cnt : Nat
  idx : Nat
deriving DecidableEq

/-- Lexicographic comparison on `(key, arr, cnt)`: the order in which
Python compares the heap tuples (the tie-breaking counter makes the fourth
component unreachable). -/
def qLe (a b : QEntry) : Prop :=
  a.key < b.key ∨ (a.key = b.key ∧
    (a.arr < b.arr ∨ (a.arr = b.arr ∧ a.cnt ≤ b.cnt)))

instance (a b : QEntry) : Decidable (qLe a b) := by
  unfold qLe; infer_instance

/-- Extraction of the least entry, as `heapq.heappop` does on the tuple
order: returns the least entry (first such occurrence) and the remaining
entries. -/
def popMin : List QEntry → Option (QEntry × List QEntry)
  | [] => none
  | e :: rest =>
    match popMin rest with
    | none => some (e, [])
    | some (m, rest') => if qLe e m then some (e, rest) else some (m, e :: rest')

/-- Stable insertion used to model Python's stable `list.sort(key=...)` on
arrival time: the inserted (earlier-listed) element goes before strictly
later keys and before equal keys of elements that followed it. -/
def insertArr (t : Task) : List Task → List Task
  | [] => [t]
  | u :: us =>
    if u.arrival_time < t.arrival_time then u :: insertArr t us
    else t :: u :: us

/-- `tasks.sort(key=lambda x: x.arrival_time)`: stable sort by arrival. -/
def sortByArrival : List Task → List Task
  | [] => []
  | t :: ts => insertArr t (sortByArrival ts)

/-- Full scheduler state: the fields of `Scheduler.__init__` plus the local
arrival cursor `task_idx` of `Scheduler.run` and the (sorted) task list. -/
structure SchedState where
  time : Nat
  tasks : List Task
  taskIdx : Nat
  ready_queue : List QEntry
  history : List (Int × Int × String)
  completed_tasks : List Nat
  missed_deadlines : Nat
  task_counter : Nat
deriving DecidableEq

/-- Lookup of the task object at index `i`. -/
def taskAt (l : List Task) (i : Nat) : Task :=
  l.getD i dTask

/-- `add_task`: assign the fresh tie-breaking counter, increment it, and push
`(priorityKey, arrival_time, counter, task)` on the ready queue. -/
def pushEntry (p : Policy) (s : SchedState) (i : Nat) : SchedState :=
  { s with
    ready_queue :=
      ⟨priorityKey p (taskAt s.tasks i), (taskAt s.tasks i).arrival_time,
        s.task_counter, i⟩ :: s.ready_queue,
    task_counter := s.task_counter + 1 }

/-- The inner arrival loop of `run`: `while task_idx < len(tasks) and
tasks[task_idx].arrival_time <= self.time: add_task(...); task_idx += 1`.
The fuel `tasks.length - taskIdx` bounds the number of iterations exactly. -/
def admitAux (p : Policy) : Nat → SchedState → SchedState
  | 0, s => s
  | Nat.succ fuel, s =>
    if s.taskIdx < s.tasks.length ∧
        (taskAt s.tasks s.taskIdx).arrival_time ≤ (s.time : Int) then
      admitAux p fuel { pushEntry p s s.taskIdx with taskIdx := s.taskIdx + 1 }
    else s

/-- Arrival admission at the top of each iteration of `run`. -/
def admitArrivals (p : Policy) (s : SchedState) : SchedState :=
  admitAux p (s.tasks.length - s.taskIdx) s

/-- The `if current_task:` branch of `run`: record the start time on first
execution, append one history entry, decrement remaining time, then either
complete the task (flagging a deadline miss if the completion time exceeds
the absolute deadline) or push it back with a fresh counter. -/
def execEntry (p : Policy) (s : SchedState) (e : QEntry) (rest : List QEntry) :
    SchedState :=
  let t0 := taskAt s.tasks e.idx
  let t1 : Task :=
    { t0 with start_time := if t0.start_time = -1 then (s.time : Int) else t0.start_time }
  let t2 : Task := { t1 with remaining_time := t1.remaining_time - 1 }
  let hist := s.history ++ [((s.time : Int), (s.time : Int) + 1, t2.task_id)]
  if t2.remaining_time = 0 then
    let t3 : Task := { t2 with completion_time := (s.time : Int) + 1 }
    let t4 : Task :=
      { t3 with missed_deadline :=
          if t3.completion_time > t3.absolute_deadline then true
          else t3.missed_deadline }
    { s with
      tasks := s.tasks.set e.idx t4,
      ready_queue := rest,
      history := hist,
      completed_tasks := s.completed_tasks ++ [e.idx],
      missed_deadlines :=
        if t3.completion_time > t3.absolute_deadline then s.missed_deadlines + 1
        else s.missed_deadlines,
      time := s.time + 1 }
  else
    let s' := { s with tasks := s.tasks.set e.idx t2, ready_queue := rest,
                       history := hist }
    { pushEntry p s' e.idx with time := s.time + 1 }

/-- One unit of simulated time given a selection result (`get_next_task`
returning a task or `None`). -/
def stepWith (p : Policy) (s : SchedState) :
    Option (QEntry × List QEntry) → SchedState
  | none =>
    { s with
      history := s.history ++ [((s.time : Int), (s.time : Int) + 1, "IDLE")],
      time := s.time + 1 }
  | some (e, rest) => execEntry p s e rest

/-- One iteration of the `while self.time < max_time` loop. -/
def step (p : Policy) (s : SchedState) : SchedState :=
  let s' := admitArrivals p s
  stepWith p s' (popMin s'.ready_queue)

/-- `k` iterations of the loop. -/
def steps (p : Policy) : Nat → SchedState → SchedState
  | 0, s => s
  | Nat.succ n, s => steps p n (step p s)

/-- State at entry of `run`, after the initial in-place
`tasks.sort(key=lambda x: x.arrival_time)`. -/
def initState (specs : List TaskSpec) : SchedState :=
  ⟨0, sortByArrival (specs.map mkTask), 0, [], [], [], 0, 0⟩

/-- `Scheduler.run(tasks, max_time)` on freshly constructed tasks: the loop
runs `time` from 0 to `max_time - 1`, one unit per iteration.  The whole
final state is returned so that the history, the task list, the completed
list and the miss counter are all observable. -/
def run (p : Policy) (specs : List TaskSpec) (max_time : Nat) : SchedState :=
  steps p max_time (initState specs)

/-- Number of history entries bearing identifier `id`. -/
def countId (id : String) (h : List (Int × Int × String)) : Nat :=
  h.countP (fun e => decide (e.2.2 = id))

/-- The fields of a task that no engine operation ever mutates. -/
def immut (t : Task) : String × Int × Int × Int × Int × Int :=
  (t.task_id, t.arrival_time, t.burst_time, t.deadline, t.period,
    t.absolute_deadline)

/-- Indices of the queued entries. -/
def qidxs (s : SchedState) : List Nat :=
  s.ready_queue.map QEntry.idx

/-- Tie-breaking counters of the queued entries. -/
def qcnts (s : SchedState) : List Nat :=
  s.ready_queue.map QEntry.cnt

/-- Reachable-state invariant of the engine loop. -/
structure Inv (p : Policy) (s : SchedState) : Prop where
  hTime : s.time = s.history.length
  hHist : ∀ j (h : j < s.history.length),
    (s.history.get ⟨j, h⟩).1 = (j : Int) ∧
    (s.history.get ⟨j, h⟩).2.1 = (j : Int) + 1 ∧
    ((s.history.get ⟨j, h⟩).2.2 = "IDLE" ∨
      (s.history.get ⟨j, h⟩).2.2 ∈ s.tasks.map Task.task_id)
  hIdx : s.taskIdx ≤ s.tasks.length
  hFresh : ∀ i, s.taskIdx ≤ i → i < s.tasks.length →
    (taskAt s.tasks i).completion_time = -1 ∧ i ∉ qidxs s
  hQIdxLt : ∀ e ∈ s.ready_queue, e.idx < s.taskIdx
  hQNodup : (qidxs s).Nodup
  hQCnt : ∀ e ∈ s.ready_queue, e.cnt < s.task_counter
  hQCntNodup : (qcnts s).Nodup
  hQKey : ∀ e ∈ s.ready_queue,
    e.key = priorityKey p (taskAt s.tasks e.idx) ∧
    e.arr = (taskAt s.tasks e.idx).arrival_time ∧
    (taskAt s.tasks e.idx).completion_time = -1
  hBack : ∀ i, i < s.taskIdx → (taskAt s.tasks i).completion_time = -1 →
    i ∈ qidxs s
  hMiss : ∀ i, i < s.tasks.length →
    ((taskAt s.tasks i).missed_deadline = true ↔
      ((taskAt s.tasks i).completion_time ≠ -1 ∧
        (taskAt s.tasks i).completion_time > (taskAt s.tasks i).absolute_deadline))
  hCount : s.missed_deadlines = s.tasks.countP (fun t => t.missed_deadline)
  hCompl : ∀ i, i ∈ s.completed_tasks ↔
    (i < s.tasks.length ∧ (taskAt s.tasks i).completion_time ≠ -1)
  hComplNodup : s.completed_tasks.Nodup
  hRem0 : ∀ i, i < s.tasks.length → (taskAt s.tasks i).completion_time ≠ -1 →
    (taskAt s.tasks i).remaining_time = 0

/-- Invariant available when every task has positive burst time: remaining
times stay non-negative and vanish exactly at completion. -/
def CInv (s : SchedState) : Prop :=
  ∀ i, i < s.tasks.length →
    0 < (taskAt s.tasks i).burst_time ∧
    0 ≤ (taskAt s.tasks i).remaining_time ∧
    ((taskAt s.tasks i).remaining_time = 0 →
      (taskAt s.tasks i).completion_time ≠ -1)

/-- Identifier hygiene: distinct task ids, none equal to the idle sentinel. -/
def GoodIds (s : SchedState) : Prop :=
  (s.tasks.map Task.task_id).Nodup ∧ ∀ t ∈ s.tasks, t.task_id ≠ "IDLE"

/-- Invariant available under `GoodIds`: each task's remaining time is its
burst time minus the number of history entries bearing its identifier. -/
def DInv (s : SchedState) : Prop :=
  ∀ i, i < s.tasks.length →
    (taskAt s.tasks i).remaining_time =
      (taskAt s.tasks i).burst_time -
        (countId (taskAt s.tasks i).task_id s.history : Int)

/-- Relational heap extraction: any minimal entry under the total tuple
order may be returned, with any ordering of the remaining entries.  This is
the loosest reading of `heapq.heappop`'s contract. -/
inductive PopR : List QEntry → Option (QEntry × List QEntry) → Prop where
  | empty : PopR [] none
  | found (e : QEntry) (q rest : List QEntry) :
      e ∈ q → (∀ x ∈ q, qLe e x) → q.Perm (e :: rest) →
      PopR q (some (e, rest))

/-- One loop iteration with relational extraction. -/
def stepR (p : Policy) (s s' : SchedState) : Prop :=
  ∃ r, PopR (admitArrivals p s).ready_queue r ∧
    s' = stepWith p (admitArrivals p s) r

/-- `n` loop iterations with relational extraction. -/
inductive stepsR (p : Policy) : Nat → SchedState → SchedState → Prop where
  | zero (s : SchedState) : stepsR p 0 s s
  | succ (n : Nat) (s s' s'' : SchedState) :
      stepR p s s' → stepsR p n s' s'' → stepsR p (n + 1) s s''

/-- A complete run under the relational semantics. -/
def RunR (p : Policy) (specs : List TaskSpec) (m : Nat) (out : SchedState) : Prop :=
  stepsR p m (initState specs) out

/-- Observational agreement: equal everywhere except that the ready queues
need only hold the same entries (in any order). -/
def Sim (a b : SchedState) : Prop :=
  a.time = b.time ∧ a.tasks = b.tasks ∧ a.taskIdx = b.taskIdx ∧
  a.history = b.history ∧ a.completed_tasks = b.completed_tasks ∧
  a.missed_deadlines = b.missed_deadlines ∧ a.task_counter = b.task_counter ∧
  a.ready_queue.Perm b.ready_queue

end RTScheduler

namespace CLI

/-!
Shallow embedding of the second, independent engine
`EDFTaskScheduler.run_scheduler` in `src/main.py`.  There `deadline` is
already absolute, `completion_time` is the time unit of the last executed
slice (not `time + 1`), a per-unit pass flags not-yet-flagged tasks whose
deadline has strictly passed while work remains, and the completion-time
miss check increments the counter without re-checking the flag.
-/

/-- `main.py`'s `Task`: `start_time`/`completion_time` start as `None`. -/
structure CTask where
  task_id : Int
  execution_time : Int
  deadline : Int
  arrival_time : Int
  remaining_time : Int
  start_time : Option Int
  completion_time : Option Int
  is_completed : Bool
  missed_deadline : Bool
deriving DecidableEq

def dCTask : CTask :=
  ⟨0, 0, 0, 0, 0, none, none, false, false⟩

/-- `main.py` `Task.__init__`. -/
def mkCTask (id exec dl arr : Int) : CTask :=
  ⟨id, exec, dl, arr, exec, none, none, false, false⟩

/-- Scheduler state of `EDFTaskScheduler` after `run_scheduler`'s reset. -/
structure CState where
  tasks : List CTask
  current_time : Int
  completed_tasks : List Int
  missed_deadlines_count : Nat
  timeline : List (Int × Option Int)
deriving DecidableEq

/-- Stable insertion for `tasks.sort(key=lambda x: x.deadline)`. -/
def insertDl (c : CTask) : List CTask → List CTask
  | [] => [c]
  | u :: us => if u.deadline < c.deadline then u :: insertDl c us else c :: u :: us

def sortByDl : List CTask → List CTask
  | [] => []
  | c :: cs => insertDl c (sortByDl cs)

/-- The per-unit deadline-miss pass: flags each unflagged, uncompleted task
with remaining work whose absolute deadline lies strictly in the past, and
counts how many were newly flagged. -/
def flagPass (t : Int) : List CTask → List CTask × Nat
  | [] => ([], 0)
  | c :: cs =>
    let r := flagPass t cs
    if c.is_completed = false ∧ c.remaining_time > 0 ∧ t > c.deadline ∧
        c.missed_deadline = false then
      ({ c with missed_deadline := true } :: r.1, r.2 + 1)
    else (c :: r.1, r.2)

/-- `get_next_ready_task`: filter ready tasks, stable-sort by deadline, take
the head.  Equivalently (list order never changes during the run): the first
ready task with minimal deadline.  Returns its index. -/
def bestReadyAux (time : Int) : List CTask → Nat → Option (Nat × Int) → Option (Nat × Int)
  | [], _, best => best
  | c :: cs, i, best =>
    let best' :=
      if c.arrival_time ≤ time ∧ c.is_completed = false ∧ c.remaining_time > 0 then
        match best with
        | none => some (i, c.deadline)
        | some (j, d) => if c.deadline < d then some (i, c.deadline) else some (j, d)
      else best
    bestReadyAux time cs (i + 1) best'

def bestReady (time : Int) (l : List CTask) : Option Nat :=
  (bestReadyAux time l 0 none).map (fun r => r.1)

def allCompleted (s : CState) : Bool :=
  s.tasks.all (fun c => c.is_completed)

/-- One iteration of the `while` body of `run_scheduler`. -/
def cliStep (s : CState) : CState :=
  let fp := flagPass s.current_time s.tasks
  let s := { s with tasks := fp.1,
                    missed_deadlines_count := s.missed_deadlines_count + fp.2 }
  match bestReady s.current_time s.tasks with
  | none =>
    { s with timeline := s.timeline ++ [(s.current_time, none)],
             current_time := s.current_time + 1 }
  | some i =>
    let c0 : CTask := s.tasks.getD i dCTask
    let c1 : CTask := { c0 with remaining_time := c0.remaining_time - 1 }
    let c2 : CTask := if c1.start_time = none then
        { c1 with start_time := some s.current_time } else c1
    if c2.remaining_time = 0 then
      let c3 := { c2 with completion_time := some s.current_time,
                          is_completed := true }
      let c4 := if s.current_time > c3.deadline then
          { c3 with missed_deadline := true } else c3
      { s with tasks := s.tasks.set i c4,
               completed_tasks := s.completed_tasks ++ [c4.task_id],
               missed_deadlines_count :=
                 if s.current_time > c3.deadline then s.missed_deadlines_count + 1
                 else s.missed_deadlines_count,
               timeline := s.timeline ++ [(s.current_time, some c0.task_id)],
               current_time := s.current_time + 1 }
    else
      { s with tasks := s.tasks.set i c2,
               timeline := s.timeline ++ [(s.current_time, some c0.task_id)],
               current_time := s.current_time + 1 }

/-- `max([task.deadline for task in self.tasks]) if self.tasks else 0`. -/
def maxDl : List CTask → Int
  | [] => 0
  | c :: cs => cs.foldl (fun a x => max a x.deadline) c.deadline

/-- The `while self.current_time <= max_time and not
self.all_tasks_completed()` loop; `current_time` rises by 1 per iteration
from 0, so `max_time.toNat + 1` units of fuel always suffice. -/
def cliLoop (maxT : Int) : Nat → CState → CState
  | 0, s => s
  | Nat.succ fuel, s =>
    if s.current_time ≤ maxT ∧ allCompleted s = false then
      cliLoop maxT fuel (cliStep s)
    else s

/-- `EDFTaskScheduler.run_scheduler` on a freshly added task list. -/
def run_scheduler (tasks : List CTask) : CState :=
  let ts := sortByDl tasks
  let maxT := maxDl ts
  cliLoop maxT (maxT.toNat + 1) ⟨ts, 0, [], 0, []⟩

end CLI

namespace RTScheduler

/-! ### List helpers -/

theorem taskAt_cons_zero (a : Task) (l : List Task) : taskAt (a :: l) 0 = a := rfl

theorem taskAt_cons_succ (a : Task) (l : List Task) (i : Nat) :
    taskAt (a :: l) (i + 1) = taskAt l i := rfl

theorem taskAt_set_self (l : List Task) (i : Nat) (t : Task) (h : i < l.length) :
    taskAt (l.set i t) i = t := by
  induction l generalizing i with
  | nil => simp at h
  | cons a l ih =>
    cases i with
    | zero => rfl
    | succ i =>
      simp only [List.set, taskAt_cons_succ]
      exact ih i (by simpa using h)

theorem taskAt_set_other (l : List Task) (i j : Nat) (t : Task) (h : i ≠ j) :
    taskAt (l.set i t) j = taskAt l j := by
  induction l generalizing i j with
  | nil => rfl
  | cons a l ih =>
    cases i with
    | zero =>
      cases j with
      | zero => exact absurd rfl h
      | succ j => rfl
    | succ i =>
      cases j with
      | zero => rfl
      | succ j =>
        simp only [List.set, taskAt_cons_succ]
        exact ih i j (fun hc => h (by omega))

theorem taskAt_mem (l : List Task) (i : Nat) (h : i < l.length) :
    taskAt l i ∈ l := by
  induction l generalizing i with
  | nil => simp at h
  | cons a l ih =>
    cases i with
    | zero => exact List.mem_cons_self a l
    | succ i => exact List.mem_cons_of_mem a (ih i (by simpa using h))

theorem map_set_eq {β : Type} (f : Task → β) (l : List Task) (i : Nat) (t : Task)
    (h : f t = f (taskAt l i)) : (l.set i t).map f = l.map f := by
  induction l generalizing i with
  | nil => rfl
  | cons a l ih =>
    cases i with
    | zero =>
      show f t :: l.map f = f a :: l.map f
      rw [h]; rfl
    | succ i =>
      show f a :: (l.set i t).map f = f a :: l.map f
      rw [ih i h]

theorem countP_set (pb : Task → Bool) (l : List Task) (i : Nat) (t : Task)
    (h : i < l.length) :
    (l.set i t).countP pb + (if pb (taskAt l i) then 1 else 0) =
      l.countP pb + (if pb t then 1 else 0) := by
  induction l generalizing i with
  | nil => simp at h
  | cons a l ih =>
    cases i with
    | zero =>
      simp only [List.set, List.countP_cons, taskAt_cons_zero]
      by_cases h1 : pb a <;> by_cases h2 : pb t <;> simp [h1, h2]
    | succ i =>
      simp only [List.set, List.countP_cons, taskAt_cons_succ]
      have := ih i (by simpa using h)
      by_cases h1 : pb a <;> simp [h1] <;> omega

theorem nodup_map_taskAt_ne {β : Type} (f : Task → β) (l : List Task)
    (hn : (l.map f).Nodup) (i j : Nat) (hi : i < l.length) (hj : j < l.length)
    (hij : i ≠ j) : f (taskAt l i) ≠ f (taskAt l j) := by
  induction l generalizing i j with
  | nil => simp at hi
  | cons a l ih =>
    simp only [List.map, List.nodup_cons] at hn
    cases i with
    | zero =>
      cases j with
      | zero => exact absurd rfl hij
      | succ j =>
        intro hc
        exact hn.1 (hc ▸ List.mem_map_of_mem f (taskAt_mem l j (by simpa using hj)))
    | succ i =>
      cases j with
      | zero =>
        intro hc
        exact hn.1 (hc ▸ List.mem_map_of_mem f (taskAt_mem l i (by simpa using hi)))
      | succ j =>
        exact ih hn.2 i j (by simpa using hi) (by simpa using hj)
          (fun hc => hij (by omega))

theorem get_append_left {α : Type} (l l' : List α) (j : Nat) (h : j < l.length)
    (h' : j < (l ++ l').length) : (l ++ l').get ⟨j, h'⟩ = l.get ⟨j, h⟩ := by
  induction l generalizing j with
  | nil => simp at h
  | cons a l ih =>
    cases j with
    | zero => rfl
    | succ j => exact ih j (by simp at h; omega) (by simpa using h')

theorem get_append_last {α : Type} (l : List α) (x : α)
    (h : l.length < (l ++ [x]).length) : (l ++ [x]).get ⟨l.length, h⟩ = x := by
  induction l with
  | nil => rfl
  | cons a l ih => exact ih (by simp [List.length_append])

/-! ### Order and extraction lemmas -/

theorem qLe_refl (a : QEntry) : qLe a a := by unfold qLe; omega

theorem qLe_trans {a b c : QEntry} (h1 : qLe a b) (h2 : qLe b c) : qLe a c := by
  unfold qLe at *; omega

theorem qLe_total (a b : QEntry) : qLe a b ∨ qLe b a := by unfold qLe; omega

theorem qLe_antisymm {a b : QEntry} (h1 : qLe a b) (h2 : qLe b a) :
    a.key = b.key ∧ a.arr = b.arr ∧ a.cnt = b.cnt := by
  unfold qLe at *; omega

theorem popMin_eq_none {q : List QEntry} (h : popMin q = none) : q = [] := by
  cases q with
  | nil => rfl
  | cons e rest =>
    simp only [popMin] at h
    cases hr : popMin rest with
    | none => simp [hr] at h
    | some pr =>
      rw [hr] at h
      by_cases hle : qLe e pr.1 <;> simp [hle] at h

theorem popMin_min {q : List QEntry} {e : QEntry} {rest : List QEntry}
    (h : popMin q = some (e, rest)) : ∀ x ∈ q, qLe e x := by
  induction q generalizing e rest with
  | nil => simp [popMin] at h
  | cons a q ih =>
    cases hr : popMin q with
    | none =>
      have hq : q = [] := popMin_eq_none hr
      subst hq
      simp only [popMin, Option.some.injEq, Prod.mk.injEq] at h
      obtain ⟨h1, h2⟩ := h
      subst h1
      intro x hx
      rcases List.mem_cons.mp hx with hx | hx
      · subst hx; exact qLe_refl x
      · simp at hx
    | some pr =>
      obtain ⟨m, rest'⟩ := pr
      simp only [popMin, hr] at h
      by_cases hle : qLe a m
      · rw [if_pos hle] at h
        simp only [Option.some.injEq, Prod.mk.injEq] at h
        obtain ⟨h1, h2⟩ := h
        subst h1
        intro x hx
        rcases List.mem_cons.mp hx with hx | hx
        · subst hx; exact qLe_refl _
        · exact qLe_trans hle (ih hr x hx)
      · rw [if_neg hle] at h
        simp only [Option.some.injEq, Prod.mk.injEq] at h
        obtain ⟨h1, h2⟩ := h
        subst h1
        intro x hx
        rcases List.mem_cons.mp hx with hx | hx
        · rw [hx]
          rcases qLe_total m a with hmx | hxm
          · exact hmx
          · exact absurd hxm hle
        · exact ih hr x hx

theorem popMin_perm {q : List QEntry} {e : QEntry} {rest : List QEntry}
    (h : popMin q = some (e, rest)) : q.Perm (e :: rest) := by
  induction q generalizing e rest with
  | nil => simp [popMin] at h
  | cons a q ih =>
    cases hr : popMin q with
    | none =>
      have hq : q = [] := popMin_eq_none hr
      subst hq
      simp only [popMin, Option.some.injEq, Prod.mk.injEq] at h
      obtain ⟨h1, h2⟩ := h
      subst h1; subst h2
      exact List.Perm.refl _
    | some pr =>
      obtain ⟨m, rest'⟩ := pr
      simp only [popMin, hr] at h
      by_cases hle : qLe a m
      · rw [if_pos hle] at h
        simp only [Option.some.injEq, Prod.mk.injEq] at h
        obtain ⟨h1, h2⟩ := h
        subst h1; subst h2
        exact List.Perm.refl _
      · rw [if_neg hle] at h
        simp only [Option.some.injEq, Prod.mk.injEq] at h
        obtain ⟨h1, h2⟩ := h
        subst h1; subst h2
        exact List.Perm.trans (List.Perm.cons a (ih hr)) (List.Perm.swap m a rest')

theorem popMin_PopR (q : List QEntry) : PopR q (popMin q) := by
  cases h : popMin q with
  | none => rw [popMin_eq_none h]; exact PopR.empty
  | some pr =>
    obtain ⟨e, rest⟩ := pr
    have hp := popMin_perm h
    exact PopR.found e q rest (hp.symm.subset (List.mem_cons_self e rest))
      (popMin_min h) hp

/-! ### Component-preservation lemmas for the engine operations -/

theorem admitAux_preserve (p : Policy) (fuel : Nat) (s : SchedState) :
    (admitAux p fuel s).tasks = s.tasks ∧ (admitAux p fuel s).time = s.time ∧
    (admitAux p fuel s).history = s.history ∧
    (admitAux p fuel s).completed_tasks = s.completed_tasks ∧
    (admitAux p fuel s).missed_deadlines = s.missed_deadlines := by
  induction fuel generalizing s with
  | zero => exact ⟨rfl, rfl, rfl, rfl, rfl⟩
  | succ fuel ih =>
    unfold admitAux
    split
    · exact ih _
    · exact ⟨rfl, rfl, rfl, rfl, rfl⟩

theorem admit_preserve (p : Policy) (s : SchedState) :
    (admitArrivals p s).tasks = s.tasks ∧ (admitArrivals p s).time = s.time ∧
    (admitArrivals p s).history = s.history ∧
    (admitArrivals p s).completed_tasks = s.completed_tasks ∧
    (admitArrivals p s).missed_deadlines = s.missed_deadlines :=
  admitAux_preserve p _ s

theorem execEntry_time (p : Policy) (s : SchedState) (e : QEntry)
    (rest : List QEntry) : (execEntry p s e rest).time = s.time + 1 := by
  unfold execEntry
  simp only []
  split <;> rfl

theorem execEntry_history (p : Policy) (s : SchedState) (e : QEntry)
    (rest : List QEntry) :
    (execEntry p s e rest).history =
      s.history ++
        [((s.time : Int), (s.time : Int) + 1, (taskAt s.tasks e.idx).task_id)] := by
  unfold execEntry
  simp only []
  split <;> rfl

theorem execEntry_taskIdx (p : Policy) (s : SchedState) (e : QEntry)
    (rest : List QEntry) : (execEntry p s e rest).taskIdx = s.taskIdx := by
  unfold execEntry
  simp only []
  split <;> rfl

theorem execEntry_len (p : Policy) (s : SchedState) (e : QEntry)
    (rest : List QEntry) : (execEntry p s e rest).tasks.length = s.tasks.length := by
  unfold execEntry
  simp only []
  split <;> simp [pushEntry]

theorem execEntry_map_immut (p : Policy) (s : SchedState) (e : QEntry)
    (rest : List QEntry) :
    (execEntry p s e rest).tasks.map immut = s.tasks.map immut := by
  unfold execEntry
  simp only []
  split
  · exact map_set_eq immut s.tasks e.idx _ rfl
  · exact map_set_eq immut s.tasks e.idx _ rfl

theorem step_time (p : Policy) (s : SchedState) : (step p s).time = s.time + 1 := by
  unfold step
  simp only []
  cases hpop : popMin (admitArrivals p s).ready_queue with
  | none =>
    show (admitArrivals p s).time + 1 = s.time + 1
    rw [(admit_preserve p s).2.1]
  | some pr =>
    obtain ⟨e, rest⟩ := pr
    show (execEntry p (admitArrivals p s) e rest).time = s.time + 1
    rw [execEntry_time, (admit_preserve p s).2.1]

theorem step_hist (p : Policy) (s : SchedState) :
    ∃ x, (step p s).history = s.history ++ [x] := by
  unfold step
  simp only []
  cases hpop : popMin (admitArrivals p s).ready_queue with
  | none =>
    refine ⟨((s.time : Int), (s.time : Int) + 1, "IDLE"), ?_⟩
    show (admitArrivals p s).history ++
        [(((admitArrivals p s).time : Int), ((admitArrivals p s).time : Int) + 1,
          "IDLE")] =
      s.history ++ [((s.time : Int), (s.time : Int) + 1, "IDLE")]
    rw [(admit_preserve p s).2.2.1, (admit_preserve p s).2.1]
  | some pr =>
    obtain ⟨e, rest⟩ := pr
    refine ⟨((s.time : Int), (s.time : Int) + 1, (taskAt s.tasks e.idx).task_id), ?_⟩
    show (execEntry p (admitArrivals p s) e rest).history = _
    rw [execEntry_history, (admit_preserve p s).1, (admit_preserve p s).2.2.1,
      (admit_preserve p s).2.1]

theorem step_len (p : Policy) (s : SchedState) :
    (step p s).tasks.length = s.tasks.length := by
  unfold step
  simp only []
  cases hpop : popMin (admitArrivals p s).ready_queue with
  | none =>
    show (admitArrivals p s).tasks.length = s.tasks.length
    rw [(admit_preserve p s).1]
  | some pr =>
    obtain ⟨e, rest⟩ := pr
    show (execEntry p (admitArrivals p s) e rest).tasks.length = s.tasks.length
    rw [execEntry_len, (admit_preserve p s).1]

theorem step_map_immut (p : Policy) (s : SchedState) :
    (step p s).tasks.map immut = s.tasks.map immut := by
  unfold step
  simp only []
  cases hpop : popMin (admitArrivals p s).ready_queue with
  | none =>
    show (admitArrivals p s).tasks.map immut = s.tasks.map immut
    rw [(admit_preserve p s).1]
  | some pr =>
    obtain ⟨e, rest⟩ := pr
    show (execEntry p (admitArrivals p s) e rest).tasks.map immut = s.tasks.map immut
    rw [execEntry_map_immut, (admit_preserve p s).1]

theorem steps_time (p : Policy) (k : Nat) (s : SchedState) :
    (steps p k s).time = s.time + k := by
  induction k generalizing s with
  | zero => rfl
  | succ k ih =>
    show (steps p k (step p s)).time = s.time + (k + 1)
    rw [ih, step_time]
    omega

theorem steps_len (p : Policy) (k : Nat) (s : SchedState) :
    (steps p k s).tasks.length = s.tasks.length := by
  induction k generalizing s with
  | zero => rfl
  | succ k ih =>
    show (steps p k (step p s)).tasks.length = s.tasks.length
    rw [ih, step_len]

theorem steps_map_immut (p : Policy) (k : Nat) (s : SchedState) :
    (steps p k s).tasks.map immut = s.tasks.map immut := by
  induction k generalizing s with
  | zero => rfl
  | succ k ih =>
    show (steps p k (step p s)).tasks.map immut = s.tasks.map immut
    rw [ih, step_map_immut]

theorem steps_hist_append (p : Policy) (k : Nat) (s : SchedState) :
    ∃ l, (steps p k s).history = s.history ++ l ∧ l.length = k := by
  induction k generalizing s with
  | zero => exact ⟨[], by simp [steps], rfl⟩
  | succ k ih =>
    obtain ⟨x, hx⟩ := step_hist p s
    obtain ⟨l, hl, hlen⟩ := ih (step p s)
    refine ⟨x :: l, ?_, by simp [hlen]⟩
    show (steps p k (step p s)).history = s.history ++ (x :: l)
    rw [hl, hx]
    simp

theorem steps_add (p : Policy) (a b : Nat) (s : SchedState) :
    steps p (a + b) s = steps p b (steps p a s) := by
  induction a generalizing s with
  | zero => rw [Nat.zero_add]; rfl
  | succ a ih =>
    have h1 : a + 1 + b = (a + b) + 1 := by omega
    rw [h1]
    show steps p (a + b) (step p s) = steps p b (steps p a (step p s))
    exact ih (step p s)

/-! ### Sorting lemmas -/

theorem insertArr_perm (t : Task) (l : List Task) :
    (insertArr t l).Perm (t :: l) := by
  induction l with
  | nil => exact List.Perm.refl _
  | cons u us ih =>
    unfold insertArr
    split
    · exact List.Perm.trans (List.Perm.cons u ih) (List.Perm.swap t u us)
    · exact List.Perm.refl _

theorem sortByArrival_perm (l : List Task) : (sortByArrival l).Perm l := by
  induction l with
  | nil => exact List.Perm.refl _
  | cons t ts ih =>
    exact List.Perm.trans (insertArr_perm t (sortByArrival ts)) (List.Perm.cons t ih)

theorem insertArr_sorted (t : Task) (l : List Task)
    (h : l.Pairwise (fun a b => a.arrival_time ≤ b.arrival_time)) :
    (insertArr t l).Pairwise (fun a b => a.arrival_time ≤ b.arrival_time) := by
  induction l with
  | nil => simp [insertArr]
  | cons u us ih =>
    rw [List.pairwise_cons] at h
    unfold insertArr
    split
    · rename_i hlt
      rw [List.pairwise_cons]
      constructor
      · intro b hb
        rcases ((insertArr_perm t us).subset hb |> List.mem_cons.mp) with hb | hb
        · subst hb; omega
        · exact h.1 b hb
      · exact ih h.2
    · rename_i hnlt
      rw [List.pairwise_cons]
      refine ⟨?_, List.pairwise_cons.mpr h⟩
      intro b hb
      rcases List.mem_cons.mp hb with hb | hb
      · subst hb; omega
      · have := h.1 b hb; omega

theorem sortByArrival_sorted (l : List Task) :
    (sortByArrival l).Pairwise (fun a b => a.arrival_time ≤ b.arrival_time) := by
  induction l with
  | nil => simp [sortByArrival]
  | cons t ts ih => exact insertArr_sorted t (sortByArrival ts) ih

theorem initTasks_fresh (specs : List TaskSpec) :
    ∀ t ∈ sortByArrival (specs.map mkTask),
      t.remaining_time = t.burst_time ∧ t.completion_time = -1 ∧
      t.start_time = -1 ∧ t.missed_deadline = false := by
  intro t ht
  have hm := (sortByArrival_perm _).subset ht
  obtain ⟨sp, _, rfl⟩ := List.mem_map.mp hm
  exact ⟨rfl, rfl, rfl, rfl⟩

/-! ### Invariant preservation -/

theorem nodup_concat {α : Type} {l : List α} {a : α} (h : l.Nodup) (ha : a ∉ l) :
    (l ++ [a]).Nodup := by
  induction l with
  | nil => simp
  | cons b l ih =>
    rw [List.nodup_cons] at h
    rw [List.cons_append, List.nodup_cons]
    constructor
    · intro hb
      rcases List.mem_append.mp hb with hb | hb
      · exact h.1 hb
      · rw [List.mem_singleton] at hb
        exact ha (hb ▸ List.mem_cons_self b l)
    · exact ih h.2 (fun hc => ha (List.mem_cons_of_mem b hc))

theorem Inv_init (p : Policy) (specs : List TaskSpec) : Inv p (initState specs) := by
  refine
    { hTime := rfl
      hHist := ?_
      hIdx := Nat.zero_le _
      hFresh := ?_
      hQIdxLt := ?_
      hQNodup := List.nodup_nil
      hQCnt := ?_
      hQCntNodup := List.nodup_nil
      hQKey := ?_
      hBack := ?_
      hMiss := ?_
      hCount := ?_
      hCompl := ?_
      hComplNodup := List.nodup_nil
      hRem0 := ?_ }
  · intro j h
    exact absurd h (Nat.not_lt_zero j)
  · intro i _ hlen
    refine ⟨?_, by simp [qidxs, initState]⟩
    exact (initTasks_fresh specs _ (taskAt_mem _ i hlen)).2.1
  · intro e he
    simp [initState] at he
  · intro e he
    simp [initState] at he
  · intro e he
    simp [initState] at he
  · intro i hi
    exact absurd hi (Nat.not_lt_zero i)
  · intro i hlen
    have hf := initTasks_fresh specs _ (taskAt_mem _ i hlen)
    constructor
    · intro hm
      exact Bool.noConfusion (hf.2.2.2.symm.trans hm)
    · intro hc
      exact absurd hf.2.1 hc.1
  · show 0 = List.countP _ _
    symm
    rw [List.countP_eq_zero]
    intro t ht
    simp [(initTasks_fresh specs t ht).2.2.2]
  · intro i
    constructor
    · intro hi
      simp [initState] at hi
    · intro hc
      exact absurd (initTasks_fresh specs _ (taskAt_mem _ i hc.1)).2.1 hc.2
  · intro i hlen hc
    exact absurd (initTasks_fresh specs _ (taskAt_mem _ i hlen)).2.1 hc

theorem Inv_admitOne (p : Policy) (s : SchedState) (hInv : Inv p s)
    (hlt : s.taskIdx < s.tasks.length) :
    Inv p { pushEntry p s s.taskIdx with taskIdx := s.taskIdx + 1 } := by
  have hfr := hInv.hFresh s.taskIdx (Nat.le_refl _) hlt
  refine
    { hTime := hInv.hTime
      hHist := hInv.hHist
      hIdx := hlt
      hFresh := ?_
      hQIdxLt := ?_
      hQNodup := ?_
      hQCnt := ?_
      hQCntNodup := ?_
      hQKey := ?_
      hBack := ?_
      hMiss := hInv.hMiss
      hCount := hInv.hCount
      hCompl := hInv.hCompl
      hComplNodup := hInv.hComplNodup
      hRem0 := hInv.hRem0 }
  · intro i hle hlen
    dsimp only [pushEntry] at hle hlen
    have hold := hInv.hFresh i (by omega) hlen
    refine ⟨hold.1, ?_⟩
    show i ∉ s.taskIdx :: qidxs s
    intro hc
    rcases List.mem_cons.mp hc with hc | hc
    · omega
    · exact hold.2 hc
  · intro e he
    dsimp only [pushEntry] at he ⊢
    rcases List.mem_cons.mp he with he | he
    · subst he; simp
    · have := hInv.hQIdxLt e he; omega
  · show (s.taskIdx :: qidxs s).Nodup
    rw [List.nodup_cons]
    exact ⟨hfr.2, hInv.hQNodup⟩

  · intro e he
    dsimp only [pushEntry] at he ⊢
    rcases List.mem_cons.mp he with he | he
    · subst he; simp
    · have := hInv.hQCnt e he; omega
  · show (s.task_counter :: qcnts s).Nodup
    rw [List.nodup_cons]
    refine ⟨?_, hInv.hQCntNodup⟩
    intro hc
    obtain ⟨x, hx, hxc⟩ := List.mem_map.mp hc
    have := hInv.hQCnt x hx
    omega
  · intro e he
    dsimp only [pushEntry] at he ⊢
    rcases List.mem_cons.mp he with he | he
    · subst he
      exact ⟨rfl, rfl, hfr.1⟩
    · exact hInv.hQKey e he
  · intro i hi hc
    dsimp only [pushEntry] at hi hc ⊢
    by_cases hij : i = s.taskIdx
    · subst hij
      exact List.mem_cons_self _ _
    · have hlt2 : i < s.taskIdx := by omega
      exact List.mem_cons_of_mem _ (hInv.hBack i hlt2 hc)

theorem Inv_admitLoop (p : Policy) (fuel : Nat) (s : SchedState) (hInv : Inv p s) :
    Inv p (admitAux p fuel s) := by
  induction fuel generalizing s with
  | zero => exact hInv
  | succ fuel ih =>
    unfold admitAux
    split
    · rename_i hcond
      exact ih _ (Inv_admitOne p s hInv hcond.1)
    · exact hInv

theorem Inv_admitted (p : Policy) (s : SchedState) (hInv : Inv p s) :
    Inv p (admitArrivals p s) :=
  Inv_admitLoop p _ s hInv

theorem Inv_idle (p : Policy) (s : SchedState) (hInv : Inv p s) :
    Inv p (stepWith p s none) := by
  dsimp only [stepWith]
  refine
    { hTime := ?_
      hHist := ?_
      hIdx := hInv.hIdx
      hFresh := hInv.hFresh
      hQIdxLt := hInv.hQIdxLt
      hQNodup := hInv.hQNodup
      hQCnt := hInv.hQCnt
      hQCntNodup := hInv.hQCntNodup
      hQKey := hInv.hQKey
      hBack := hInv.hBack
      hMiss := hInv.hMiss
      hCount := hInv.hCount
      hCompl := hInv.hCompl
      hComplNodup := hInv.hComplNodup
      hRem0 := hInv.hRem0 }
  · show s.time + 1 =
      (s.history ++ [((s.time : Int), (s.time : Int) + 1, "IDLE")]).length
    rw [List.length_append, hInv.hTime]
    rfl
  · intro j hj
    dsimp only at hj ⊢
    rw [List.length_append] at hj
    simp only [List.length_singleton] at hj
    by_cases hlt : j < s.history.length
    · rw [get_append_left s.history _ j hlt]
      exact hInv.hHist j hlt
    · have hj' : j = s.history.length := by omega
      subst hj'
      rw [get_append_last s.history _]
      refine ⟨by rw [hInv.hTime], by rw [hInv.hTime], Or.inl rfl⟩

theorem priorityKey_congr (p : Policy) (t t' : Task) (h : immut t = immut t') :
    priorityKey p t = priorityKey p t' := by
  have h4 : t.deadline = t'.deadline := congrArg (fun x => x.2.2.2.1) h
  have h5 : t.period = t'.period := congrArg (fun x => x.2.2.2.2.1) h
  have h6 : t.absolute_deadline = t'.absolute_deadline :=
    congrArg (fun x => x.2.2.2.2.2) h
  cases p
  · exact h6
  · show (if t.period > 0 then t.period else t.deadline) = _
    rw [h4, h5]
    rfl

/-- Invariant preservation through the completion branch of one executed
unit, stated for an arbitrary updated task `t4` constrained by equations so
that it applies to the concrete record produced by `execEntry`. -/
theorem Inv_execGen (p : Policy) (s : SchedState) (e : QEntry)
    (rest : List QEntry) (t4 : Task) (hInv : Inv p s)
    (hpop : popMin s.ready_queue = some (e, rest))
    (himm : immut t4 = immut (taskAt s.tasks e.idx))
    (hrem4 : t4.remaining_time = (taskAt s.tasks e.idx).remaining_time - 1)
    (hcomp4 : t4.completion_time = (s.time : Int) + 1)
    (hmiss4 : t4.missed_deadline =
      (if (s.time : Int) + 1 > (taskAt s.tasks e.idx).absolute_deadline then true
       else (taskAt s.tasks e.idx).missed_deadline))
    (hrem0 : (taskAt s.tasks e.idx).remaining_time - 1 = 0) :
    Inv p
      { time := s.time + 1,
        tasks := s.tasks.set e.idx t4,
        taskIdx := s.taskIdx,
        ready_queue := rest,
        history := s.history ++
          [((s.time : Int), (s.time : Int) + 1, (taskAt s.tasks e.idx).task_id)],
        completed_tasks := s.completed_tasks ++ [e.idx],
        missed_deadlines :=
          if (s.time : Int) + 1 > (taskAt s.tasks e.idx).absolute_deadline then
            s.missed_deadlines + 1
          else s.missed_deadlines,
        task_counter := s.task_counter } := by
  have hperm := popMin_perm hpop
  have hein : e ∈ s.ready_queue := hperm.symm.subset (List.mem_cons_self e rest)
  have hjlt : e.idx < s.taskIdx := hInv.hQIdxLt e hein
  have hjlen : e.idx < s.tasks.length := Nat.lt_of_lt_of_le hjlt hInv.hIdx
  have hkey := hInv.hQKey e hein
  have hcomp : (taskAt s.tasks e.idx).completion_time = -1 := hkey.2.2
  have hmissF : (taskAt s.tasks e.idx).missed_deadline = false := by
    cases hmb : (taskAt s.tasks e.idx).missed_deadline
    · rfl
    · exact absurd hcomp (((hInv.hMiss e.idx hjlen).mp hmb).1)
  have hqidx_perm : (qidxs s).Perm (e.idx :: rest.map QEntry.idx) := by
    simpa [qidxs] using hperm.map QEntry.idx
  have hidxNodup : e.idx ∉ rest.map QEntry.idx ∧ (rest.map QEntry.idx).Nodup :=
    List.nodup_cons.mp (hqidx_perm.nodup_iff.mp hInv.hQNodup)
  have hqcnt_perm : (qcnts s).Perm (e.cnt :: rest.map QEntry.cnt) := by
    simpa [qcnts] using hperm.map QEntry.cnt
  have hcntNodup : e.cnt ∉ rest.map QEntry.cnt ∧ (rest.map QEntry.cnt).Nodup :=
    List.nodup_cons.mp (hqcnt_perm.nodup_iff.mp hInv.hQCntNodup)
  have hsub : ∀ x ∈ rest, x ∈ s.ready_queue := fun x hx =>
    hperm.symm.subset (List.mem_cons_of_mem e hx)
  have hxne : ∀ x ∈ rest, x.idx ≠ e.idx := by
    intro x hx hc
    exact hidxNodup.1 (hc ▸ List.mem_map_of_mem QEntry.idx hx)
  have hmemq : ∀ i, i ∈ qidxs s → i = e.idx ∨ i ∈ rest.map QEntry.idx :=
    fun i hi => List.mem_cons.mp (hqidx_perm.subset hi)
  have h1 : t4.task_id = (taskAt s.tasks e.idx).task_id :=
    congrArg (fun x => x.1) himm
  have h6 : t4.absolute_deadline = (taskAt s.tasks e.idx).absolute_deadline :=
    congrArg (fun x => x.2.2.2.2.2) himm
  have hmap : (s.tasks.set e.idx t4).map Task.task_id = s.tasks.map Task.task_id :=
    map_set_eq Task.task_id s.tasks e.idx t4 h1
  refine
    { hTime := ?_
      hHist := ?_
      hIdx := ?_
      hFresh := ?_
      hQIdxLt := ?_
      hQNodup := hidxNodup.2
      hQCnt := ?_
      hQCntNodup := hcntNodup.2
      hQKey := ?_
      hBack := ?_
      hMiss := ?_
      hCount := ?_
      hCompl := ?_
      hComplNodup := ?_
      hRem0 := ?_ }
  · show s.time + 1 = (s.history ++ [_]).length
    rw [List.length_append, ← hInv.hTime]
    rfl
  · intro j hj
    dsimp only at hj ⊢
    rw [List.length_append] at hj
    simp only [List.length_singleton] at hj
    by_cases hlt : j < s.history.length
    · rw [get_append_left s.history _ j hlt]
      obtain ⟨ha, hb, hc⟩ := hInv.hHist j hlt
      refine ⟨ha, hb, ?_⟩
      rw [hmap]
      exact hc
    · have hj' : j = s.history.length := by omega
      subst hj'
      rw [get_append_last s.history _]
      refine ⟨by rw [hInv.hTime], by rw [hInv.hTime], Or.inr ?_⟩
      rw [hmap]
      exact List.mem_map_of_mem Task.task_id (taskAt_mem s.tasks e.idx hjlen)
  · show s.taskIdx ≤ (s.tasks.set e.idx t4).length
    rw [List.length_set]
    exact hInv.hIdx
  · intro i hle hlen
    dsimp only at hle hlen ⊢
    rw [List.length_set] at hlen
    have hne : e.idx ≠ i := by omega
    rw [taskAt_set_other s.tasks e.idx i t4 hne]
    refine ⟨(hInv.hFresh i hle hlen).1, ?_⟩
    show i ∉ rest.map QEntry.idx
    intro hc
    obtain ⟨x, hx, hxi⟩ := List.mem_map.mp hc
    exact (hInv.hFresh i hle hlen).2
      (hxi ▸ List.mem_map_of_mem QEntry.idx (hsub x hx))
  · intro x hx
    exact hInv.hQIdxLt x (hsub x hx)
  · intro x hx
    exact hInv.hQCnt x (hsub x hx)
  · intro x hx
    have hne : e.idx ≠ x.idx := fun hc => hxne x hx hc.symm
    show x.key = priorityKey p (taskAt (s.tasks.set e.idx t4) x.idx) ∧ _
    rw [taskAt_set_other s.tasks e.idx x.idx t4 hne]
    exact hInv.hQKey x (hsub x hx)
  · intro i hi hc
    dsimp only at hi hc ⊢
    by_cases hie : i = e.idx
    · subst hie
      rw [taskAt_set_self s.tasks e.idx t4 hjlen, hcomp4] at hc
      exact absurd hc (by omega)
    · rw [taskAt_set_other s.tasks e.idx i t4 (fun hc2 => hie hc2.symm)] at hc
      rcases hmemq i (hInv.hBack i hi hc) with hm | hm
      · exact absurd hm hie
      · exact hm
  · intro i hlen
    dsimp only at hlen ⊢
    rw [List.length_set] at hlen
    by_cases hie : i = e.idx
    · subst hie
      rw [taskAt_set_self s.tasks e.idx t4 hjlen, hmiss4, hcomp4, h6]
      constructor
      · intro hm
        split at hm
        · rename_i hgt
          exact ⟨by omega, hgt⟩
        · rw [hmissF] at hm
          exact Bool.noConfusion hm
      · intro hcgt
        rw [if_pos hcgt.2]
    · rw [taskAt_set_other s.tasks e.idx i t4 (fun hc2 => hie hc2.symm)]
      exact hInv.hMiss i hlen
  · dsimp only
    have hcps := countP_set (fun t => t.missed_deadline) s.tasks e.idx t4 hjlen
    simp only [hmissF, hmiss4] at hcps
    rw [hInv.hCount]
    by_cases hgt : (s.time : Int) + 1 > (taskAt s.tasks e.idx).absolute_deadline
    · rw [if_pos hgt]
      rw [if_pos hgt] at hcps
      simp at hcps
      omega
    · rw [if_neg hgt]
      rw [if_neg hgt] at hcps
      simp [hmissF] at hcps
      omega
  · intro i
    dsimp only
    rw [List.length_set]
    by_cases hie : i = e.idx
    · subst hie
      rw [taskAt_set_self s.tasks e.idx t4 hjlen, hcomp4]
      constructor
      · intro _
        exact ⟨hjlen, by omega⟩
      · intro _
        exact List.mem_append.mpr (Or.inr (List.mem_singleton_self e.idx))
    · rw [taskAt_set_other s.tasks e.idx i t4 (fun hc2 => hie hc2.symm)]
      constructor
      · intro hi
        rcases List.mem_append.mp hi with hi | hi
        · exact (hInv.hCompl i).mp hi
        · rw [List.mem_singleton] at hi
          exact absurd hi hie
      · intro hc
        exact List.mem_append.mpr (Or.inl ((hInv.hCompl i).mpr hc))
  · exact nodup_concat hInv.hComplNodup
      (fun hc => ((hInv.hCompl e.idx).mp hc).2 hcomp)
  · intro i hlen hc
    dsimp only at hlen hc ⊢
    rw [List.length_set] at hlen
    by_cases hie : i = e.idx
    · subst hie
      rw [taskAt_set_self s.tasks e.idx t4 hjlen] at hc ⊢
      rw [hrem4]
      exact hrem0
    · rw [taskAt_set_other s.tasks e.idx i t4 (fun hc2 => hie hc2.symm)] at hc ⊢
      exact hInv.hRem0 i hlen hc

/-- Invariant preservation through the push-back branch of one executed
unit (remaining work still positive, re-inserted with a fresh counter). -/
theorem Inv_pushBackGen (p : Policy) (s : SchedState) (e : QEntry)
    (rest : List QEntry) (t2 : Task) (hInv : Inv p s)
    (hpop : popMin s.ready_queue = some (e, rest))
    (himm : immut t2 = immut (taskAt s.tasks e.idx))
    (hcomp2 : t2.completion_time = (taskAt s.tasks e.idx).completion_time)
    (hmiss2 : t2.missed_deadline = (taskAt s.tasks e.idx).missed_deadline) :
    Inv p
      { time := s.time + 1,
        tasks := s.tasks.set e.idx t2,
        taskIdx := s.taskIdx,
        ready_queue :=
          ⟨priorityKey p (taskAt (s.tasks.set e.idx t2) e.idx),
            (taskAt (s.tasks.set e.idx t2) e.idx).arrival_time, s.task_counter,
            e.idx⟩ :: rest,
        history := s.history ++
          [((s.time : Int), (s.time : Int) + 1, (taskAt s.tasks e.idx).task_id)],
        completed_tasks := s.completed_tasks,
        missed_deadlines := s.missed_deadlines,
        task_counter := s.task_counter + 1 } := by
  have hperm := popMin_perm hpop
  have hein : e ∈ s.ready_queue := hperm.symm.subset (List.mem_cons_self e rest)
  have hjlt : e.idx < s.taskIdx := hInv.hQIdxLt e hein
  have hjlen : e.idx < s.tasks.length := Nat.lt_of_lt_of_le hjlt hInv.hIdx
  have hkey := hInv.hQKey e hein
  have hcomp : (taskAt s.tasks e.idx).completion_time = -1 := hkey.2.2
  have hqidx_perm : (qidxs s).Perm (e.idx :: rest.map QEntry.idx) := by
    simpa [qidxs] using hperm.map QEntry.idx
  have hidxNodup : e.idx ∉ rest.map QEntry.idx ∧ (rest.map QEntry.idx).Nodup :=
    List.nodup_cons.mp (hqidx_perm.nodup_iff.mp hInv.hQNodup)
  have hqcnt_perm : (qcnts s).Perm (e.cnt :: rest.map QEntry.cnt) := by
    simpa [qcnts] using hperm.map QEntry.cnt
  have hcntNodup : e.cnt ∉ rest.map QEntry.cnt ∧ (rest.map QEntry.cnt).Nodup :=
    List.nodup_cons.mp (hqcnt_perm.nodup_iff.mp hInv.hQCntNodup)
  have hsub : ∀ x ∈ rest, x ∈ s.ready_queue := fun x hx =>
    hperm.symm.subset (List.mem_cons_of_mem e hx)
  have hxne : ∀ x ∈ rest, x.idx ≠ e.idx := by
    intro x hx hc
    exact hidxNodup.1 (hc ▸ List.mem_map_of_mem QEntry.idx hx)
  have hmemq : ∀ i, i ∈ qidxs s → i = e.idx ∨ i ∈ rest.map QEntry.idx :=
    fun i hi => List.mem_cons.mp (hqidx_perm.subset hi)
  have h1 : t2.task_id = (taskAt s.tasks e.idx).task_id :=
    congrArg (fun x => x.1) himm
  have h2 : t2.arrival_time = (taskAt s.tasks e.idx).arrival_time :=
    congrArg (fun x => x.2.1) himm
  have h6 : t2.absolute_deadline = (taskAt s.tasks e.idx).absolute_deadline :=
    congrArg (fun x => x.2.2.2.2.2) himm
  have hmap : (s.tasks.set e.idx t2).map Task.task_id = s.tasks.map Task.task_id :=
    map_set_eq Task.task_id s.tasks e.idx t2 h1
  refine
    { hTime := ?_
      hHist := ?_
      hIdx := ?_
      hFresh := ?_
      hQIdxLt := ?_
      hQNodup := ?_
      hQCnt := ?_
      hQCntNodup := ?_
      hQKey := ?_
      hBack := ?_
      hMiss := ?_
      hCount := ?_
      hCompl := ?_
      hComplNodup := hInv.hComplNodup
      hRem0 := ?_ }
  · show s.time + 1 = (s.history ++ [_]).length
    rw [List.length_append, ← hInv.hTime]
    rfl
  · intro j hj
    dsimp only at hj ⊢
    rw [List.length_append] at hj
    simp only [List.length_singleton] at hj
    by_cases hlt : j < s.history.length
    · rw [get_append_left s.history _ j hlt]
      obtain ⟨ha, hb, hc⟩ := hInv.hHist j hlt
      refine ⟨ha, hb, ?_⟩
      rw [hmap]
      exact hc
    · have hj' : j = s.history.length := by omega
      subst hj'
      rw [get_append_last s.history _]
      refine ⟨by rw [hInv.hTime], by rw [hInv.hTime], Or.inr ?_⟩
      rw [hmap]
      exact List.mem_map_of_mem Task.task_id (taskAt_mem s.tasks e.idx hjlen)
  · show s.taskIdx ≤ (s.tasks.set e.idx t2).length
    rw [List.length_set]
    exact hInv.hIdx
  · intro i hle hlen
    dsimp only at hle hlen ⊢
    rw [List.length_set] at hlen
    have hne : e.idx ≠ i := by omega
    rw [taskAt_set_other s.tasks e.idx i t2 hne]
    refine ⟨(hInv.hFresh i hle hlen).1, ?_⟩
    show i ∉ e.idx :: rest.map QEntry.idx
    intro hc
    rcases List.mem_cons.mp hc with hc | hc
    · exact hne hc.symm
    · obtain ⟨x, hx, hxi⟩ := List.mem_map.mp hc
      exact (hInv.hFresh i hle hlen).2
        (hxi ▸ List.mem_map_of_mem QEntry.idx (hsub x hx))
  · intro x hx
    rcases List.mem_cons.mp hx with hx | hx
    · subst hx
      exact hjlt
    · exact hInv.hQIdxLt x (hsub x hx)
  · show (e.idx :: rest.map QEntry.idx).Nodup
    rw [List.nodup_cons]
    exact ⟨hidxNodup.1, hidxNodup.2⟩
  · intro x hx
    rcases List.mem_cons.mp hx with hx | hx
    · subst hx
      simp
    · have := hInv.hQCnt x (hsub x hx)
      dsimp only
      omega
  · show (s.task_counter :: rest.map QEntry.cnt).Nodup
    rw [List.nodup_cons]
    refine ⟨?_, hcntNodup.2⟩
    intro hc
    obtain ⟨x, hx, hxc⟩ := List.mem_map.mp hc
    have := hInv.hQCnt x (hsub x hx)
    omega
  · intro x hx
    rcases List.mem_cons.mp hx with hx | hx
    · subst hx
      refine ⟨rfl, rfl, ?_⟩
      show (taskAt (s.tasks.set e.idx t2) e.idx).completion_time = -1
      rw [taskAt_set_self s.tasks e.idx t2 hjlen, hcomp2]
      exact hcomp
    · have hne : e.idx ≠ x.idx := fun hc => hxne x hx hc.symm
      show x.key = priorityKey p (taskAt (s.tasks.set e.idx t2) x.idx) ∧ _
      rw [taskAt_set_other s.tasks e.idx x.idx t2 hne]
      exact hInv.hQKey x (hsub x hx)
  · intro i hi hc
    dsimp only at hi hc ⊢
    by_cases hie : i = e.idx
    · subst hie
      exact List.mem_cons_self _ _
    · rw [taskAt_set_other s.tasks e.idx i t2 (fun hc2 => hie hc2.symm)] at hc
      rcases hmemq i (hInv.hBack i hi hc) with hm | hm
      · exact absurd hm hie
      · exact List.mem_cons_of_mem _ hm
  · intro i hlen
    dsimp only at hlen ⊢
    rw [List.length_set] at hlen
    by_cases hie : i = e.idx
    · subst hie
      rw [taskAt_set_self s.tasks e.idx t2 hjlen, hmiss2, hcomp2, h6]
      exact hInv.hMiss e.idx hjlen
    · rw [taskAt_set_other s.tasks e.idx i t2 (fun hc2 => hie hc2.symm)]
      exact hInv.hMiss i hlen
  · dsimp only
    have hcps := countP_set (fun t => t.missed_deadline) s.tasks e.idx t2 hjlen
    simp only [hmiss2] at hcps
    rw [hInv.hCount]
    omega
  · intro i
    dsimp only
    rw [List.length_set]
    by_cases hie : i = e.idx
    · subst hie
      rw [taskAt_set_self s.tasks e.idx t2 hjlen, hcomp2]
      exact hInv.hCompl e.idx
    · rw [taskAt_set_other s.tasks e.idx i t2 (fun hc2 => hie hc2.symm)]
      exact hInv.hCompl i
  · intro i hlen hc
    dsimp only at hlen hc ⊢
    rw [List.length_set] at hlen
    by_cases hie : i = e.idx
    · subst hie
      rw [taskAt_set_self s.tasks e.idx t2 hjlen, hcomp2] at hc
      exact absurd hcomp hc
    · rw [taskAt_set_other s.tasks e.idx i t2 (fun hc2 => hie hc2.symm)] at hc ⊢
      exact hInv.hRem0 i hlen hc

theorem Inv_step (p : Policy) (s : SchedState) (hInv : Inv p s) :
    Inv p (step p s) := by
  unfold step
  simp only []
  cases hpop : popMin (admitArrivals p s).ready_queue with
  | none => exact Inv_idle p _ (Inv_admitted p s hInv)
  | some pr =>
    obtain ⟨e, rest⟩ := pr
    have hInv' := Inv_admitted p s hInv
    show Inv p (execEntry p (admitArrivals p s) e rest)
    unfold execEntry
    simp only []
    split
    · rename_i hrem
      apply Inv_execGen p _ e rest _ hInv' hpop
      · rfl
      · rfl
      · rfl
      · rfl
      · exact hrem
    · apply Inv_pushBackGen p _ e rest _ hInv' hpop
      · rfl
      · rfl
      · rfl

theorem Inv_steps (p : Policy) (k : Nat) (s : SchedState) (hInv : Inv p s) :
    Inv p (steps p k s) := by
  induction k generalizing s with
  | zero => exact hInv
  | succ k ih =>
    show Inv p (steps p k (step p s))
    exact ih _ (Inv_step p s hInv)

theorem Inv_run (p : Policy) (specs : List TaskSpec) (m : Nat) :
    Inv p (run p specs m) :=
  Inv_steps p m (initState specs) (Inv_init p specs)

/-! ### Conditional invariants: positive bursts, identifier counting -/

theorem CInv_admitted (p : Policy) (s : SchedState) (hC : CInv s) :
    CInv (admitArrivals p s) := by
  intro i hlen
  rw [(admit_preserve p s).1] at hlen ⊢
  exact hC i hlen

theorem CInv_step (p : Policy) (s : SchedState) (hInv : Inv p s) (hC : CInv s) :
    CInv (step p s) := by
  have hInv' := Inv_admitted p s hInv
  have hC' := CInv_admitted p s hC
  unfold step
  simp only []
  cases hpop : popMin (admitArrivals p s).ready_queue with
  | none =>
    intro i hlen
    dsimp only [stepWith] at hlen ⊢
    exact hC' i hlen
  | some pr =>
    obtain ⟨e, rest⟩ := pr
    show CInv (execEntry p (admitArrivals p s) e rest)
    have hperm := popMin_perm hpop
    have hein : e ∈ (admitArrivals p s).ready_queue :=
      hperm.symm.subset (List.mem_cons_self e rest)
    have hjlt : e.idx < (admitArrivals p s).taskIdx := hInv'.hQIdxLt e hein
    have hjlen : e.idx < (admitArrivals p s).tasks.length :=
      Nat.lt_of_lt_of_le hjlt hInv'.hIdx
    have hcomp : (taskAt (admitArrivals p s).tasks e.idx).completion_time = -1 :=
      (hInv'.hQKey e hein).2.2
    have hrpos : 0 < (taskAt (admitArrivals p s).tasks e.idx).remaining_time := by
      have h0 := hC' e.idx hjlen
      have h01 := h0.2.1
      have hne : (taskAt (admitArrivals p s).tasks e.idx).remaining_time ≠ 0 :=
        fun hc => (h0.2.2 hc) hcomp
      omega
    unfold execEntry
    simp only []
    split
    · rename_i hrem
      intro i hlen
      dsimp only [pushEntry] at hlen ⊢
      rw [List.length_set] at hlen
      by_cases hie : i = e.idx
      · subst hie
        rw [taskAt_set_self _ e.idx _ hjlen]
        dsimp only
        refine ⟨(hC' e.idx hjlen).1, by omega, ?_⟩
        intro _
        omega
      · rw [taskAt_set_other _ e.idx i _ (fun hc2 => hie hc2.symm)]
        exact hC' i hlen
    · rename_i hrem
      intro i hlen
      dsimp only [pushEntry] at hlen ⊢
      rw [List.length_set] at hlen
      by_cases hie : i = e.idx
      · subst hie
        rw [taskAt_set_self _ e.idx _ hjlen]
        dsimp only
        refine ⟨(hC' e.idx hjlen).1, by omega, ?_⟩
        intro hc
        exact absurd hc hrem
      · rw [taskAt_set_other _ e.idx i _ (fun hc2 => hie hc2.symm)]
        exact hC' i hlen

theorem map_id_step (p : Policy) (s : SchedState) :
    (step p s).tasks.map Task.task_id = s.tasks.map Task.task_id := by
  unfold step
  simp only []
  cases hpop : popMin (admitArrivals p s).ready_queue with
  | none =>
    show (admitArrivals p s).tasks.map Task.task_id = s.tasks.map Task.task_id
    rw [(admit_preserve p s).1]
  | some pr =>
    obtain ⟨e, rest⟩ := pr
    show (execEntry p (admitArrivals p s) e rest).tasks.map Task.task_id =
      s.tasks.map Task.task_id
    rw [← (admit_preserve p s).1]
    unfold execEntry
    simp only []
    split
    · exact map_set_eq Task.task_id _ e.idx _ rfl
    · exact map_set_eq Task.task_id _ e.idx _ rfl

theorem GoodIds_step (p : Policy) (s : SchedState) (h : GoodIds s) :
    GoodIds (step p s) := by
  refine ⟨map_id_step p s ▸ h.1, ?_⟩
  intro t ht
  have hmem : t.task_id ∈ (step p s).tasks.map Task.task_id :=
    List.mem_map_of_mem Task.task_id ht
  rw [map_id_step] at hmem
  obtain ⟨t', ht', hid⟩ := List.mem_map.mp hmem
  rw [← hid]
  exact h.2 t' ht'

theorem countId_append (id : String) (h : List (Int × Int × String))
    (x : Int × Int × String) :
    countId id (h ++ [x]) = countId id h + (if x.2.2 = id then 1 else 0) := by
  unfold countId
  rw [List.countP_append]
  simp [List.countP_cons]

theorem DInv_step (p : Policy) (s : SchedState) (hInv : Inv p s)
    (hIds : GoodIds s) (hD : DInv s) : DInv (step p s) := by
  have hInv' := Inv_admitted p s hInv
  have hD' : DInv (admitArrivals p s) := by
    intro i hlen
    rw [(admit_preserve p s).1] at hlen ⊢
    rw [(admit_preserve p s).2.2.1]
    exact hD i hlen
  have hIds' : GoodIds (admitArrivals p s) := by
    refine ⟨?_, ?_⟩
    · rw [(admit_preserve p s).1]
      exact hIds.1
    · rw [(admit_preserve p s).1]
      exact hIds.2
  unfold step
  simp only []
  cases hpop : popMin (admitArrivals p s).ready_queue with
  | none =>
    intro i hlen
    dsimp only [stepWith] at hlen ⊢
    rw [countId_append]
    have hne : (taskAt (admitArrivals p s).tasks i).task_id ≠ "IDLE" :=
      hIds'.2 _ (taskAt_mem _ i hlen)
    rw [if_neg (fun hc => hne hc.symm)]
    have := hD' i hlen
    omega
  | some pr =>
    obtain ⟨e, rest⟩ := pr
    show DInv (execEntry p (admitArrivals p s) e rest)
    have hperm := popMin_perm hpop
    have hein : e ∈ (admitArrivals p s).ready_queue :=
      hperm.symm.subset (List.mem_cons_self e rest)
    have hjlt : e.idx < (admitArrivals p s).taskIdx := hInv'.hQIdxLt e hein
    have hjlen : e.idx < (admitArrivals p s).tasks.length :=
      Nat.lt_of_lt_of_le hjlt hInv'.hIdx
    unfold execEntry
    simp only []
    split
    · intro i hlen
      dsimp only [pushEntry] at hlen ⊢
      rw [List.length_set] at hlen
      rw [countId_append]
      by_cases hie : i = e.idx
      · subst hie
        rw [taskAt_set_self _ e.idx _ hjlen]
        rw [if_pos rfl]
        have := hD' e.idx hjlen
        dsimp only
        push_cast
        omega
      · rw [taskAt_set_other _ e.idx i _ (fun hc2 => hie hc2.symm)]
        have hne := nodup_map_taskAt_ne Task.task_id _ hIds'.1 e.idx i hjlen hlen
          (fun hc2 => hie hc2.symm)
        rw [if_neg (fun hc => hne hc)]
        have := hD' i hlen
        omega
    · intro i hlen
      dsimp only [pushEntry] at hlen ⊢
      rw [List.length_set] at hlen
      rw [countId_append]
      by_cases hie : i = e.idx
      · subst hie
        rw [taskAt_set_self _ e.idx _ hjlen]
        rw [if_pos rfl]
        have := hD' e.idx hjlen
        dsimp only
        push_cast
        omega
      · rw [taskAt_set_other _ e.idx i _ (fun hc2 => hie hc2.symm)]
        have hne := nodup_map_taskAt_ne Task.task_id _ hIds'.1 e.idx i hjlen hlen
          (fun hc2 => hie hc2.symm)
        rw [if_neg (fun hc => hne hc)]
        have := hD' i hlen
        omega

/-! ### Monotone remaining time -/

theorem rem_step_le (p : Policy) (s : SchedState) (hInv : Inv p s) (i : Nat) :
    (taskAt (step p s).tasks i).remaining_time ≤
      (taskAt s.tasks i).remaining_time := by
  have hInv' := Inv_admitted p s hInv
  have hta : (admitArrivals p s).tasks = s.tasks := (admit_preserve p s).1
  unfold step
  simp only []
  cases hpop : popMin (admitArrivals p s).ready_queue with
  | none =>
    show (taskAt (admitArrivals p s).tasks i).remaining_time ≤ _
    rw [hta]
  | some pr =>
    obtain ⟨e, rest⟩ := pr
    show (taskAt (execEntry p (admitArrivals p s) e rest).tasks i).remaining_time ≤ _
    have hperm := popMin_perm hpop
    have hein : e ∈ (admitArrivals p s).ready_queue :=
      hperm.symm.subset (List.mem_cons_self e rest)
    have hjlt : e.idx < (admitArrivals p s).taskIdx := hInv'.hQIdxLt e hein
    have hjlen : e.idx < (admitArrivals p s).tasks.length :=
      Nat.lt_of_lt_of_le hjlt hInv'.hIdx
    unfold execEntry
    simp only []
    split
    · dsimp only [pushEntry]
      by_cases hie : i = e.idx
      · subst hie
        rw [taskAt_set_self _ e.idx _ hjlen]
        dsimp only
        rw [hta]
        omega
      · rw [taskAt_set_other _ e.idx i _ (fun hc2 => hie hc2.symm), hta]
    · dsimp only [pushEntry]
      by_cases hie : i = e.idx
      · subst hie
        rw [taskAt_set_self _ e.idx _ hjlen]
        dsimp only
        rw [hta]
        omega
      · rw [taskAt_set_other _ e.idx i _ (fun hc2 => hie hc2.symm), hta]

theorem rem_steps_le (p : Policy) (k : Nat) (s : SchedState) (hInv : Inv p s)
    (i : Nat) :
    (taskAt (steps p k s).tasks i).remaining_time ≤
      (taskAt s.tasks i).remaining_time := by
  induction k generalizing s with
  | zero => exact Int.le_refl _
  | succ k ih =>
    show (taskAt (steps p k (step p s)).tasks i).remaining_time ≤ _
    exact Int.le_trans (ih (step p s) (Inv_step p s hInv)) (rem_step_le p s hInv i)

/-! ### Determinism of the relational semantics -/

theorem Sim_struct {b a : SchedState} (h : Sim b a) :
    b = { a with ready_queue := b.ready_queue } := by
  obtain ⟨h1, h2, h3, h4, h5, h6, h7, _⟩ := h
  cases a
  cases b
  dsimp only at h1 h2 h3 h4 h5 h6 h7 ⊢
  subst h1; subst h2; subst h3; subst h4; subst h5; subst h6; subst h7
  rfl

theorem Sim_mk (a : SchedState) (q : List QEntry) (hq : q.Perm a.ready_queue) :
    Sim { a with ready_queue := q } a :=
  ⟨rfl, rfl, rfl, rfl, rfl, rfl, rfl, hq⟩

theorem admitAux_qpre (p : Policy) (fuel : Nat) (a : SchedState)
    (q : List QEntry) :
    ∃ pre,
      (admitAux p fuel a).ready_queue = pre ++ a.ready_queue ∧
      admitAux p fuel { a with ready_queue := q } =
        { admitAux p fuel a with ready_queue := pre ++ q } := by
  induction fuel generalizing a q with
  | zero =>
    refine ⟨[], ?_, ?_⟩
    · show a.ready_queue = [] ++ a.ready_queue
      simp
    · show { a with ready_queue := q } = { a with ready_queue := [] ++ q }
      simp
  | succ fuel ih =>
    unfold admitAux
    dsimp only
    by_cases hc : a.taskIdx < a.tasks.length ∧
        (taskAt a.tasks a.taskIdx).arrival_time ≤ (a.time : Int)
    · rw [if_pos hc, if_pos hc]
      obtain ⟨pre, hpre1, hpre2⟩ :=
        ih { pushEntry p a a.taskIdx with taskIdx := a.taskIdx + 1 }
          (⟨priorityKey p (taskAt a.tasks a.taskIdx),
            (taskAt a.tasks a.taskIdx).arrival_time, a.task_counter,
            a.taskIdx⟩ :: q)
      refine ⟨pre ++ [⟨priorityKey p (taskAt a.tasks a.taskIdx),
        (taskAt a.tasks a.taskIdx).arrival_time, a.task_counter, a.taskIdx⟩],
        ?_, ?_⟩
      · rw [hpre1]
        show pre ++ ({ pushEntry p a a.taskIdx with
            taskIdx := a.taskIdx + 1 } : SchedState).ready_queue = _
        dsimp only [pushEntry]
        simp
      · have hq' : (pre ++ [(⟨priorityKey p (taskAt a.tasks a.taskIdx),
            (taskAt a.tasks a.taskIdx).arrival_time, a.task_counter,
            a.taskIdx⟩ : QEntry)]) ++ q =
            pre ++ ((⟨priorityKey p (taskAt a.tasks a.taskIdx),
            (taskAt a.tasks a.taskIdx).arrival_time, a.task_counter,
            a.taskIdx⟩ : QEntry) :: q) := by simp
        rw [hq']
        exact hpre2
    · rw [if_neg hc, if_neg hc]
      refine ⟨[], ?_, ?_⟩
      · show a.ready_queue = [] ++ a.ready_queue
        simp
      · show { a with ready_queue := q } = { a with ready_queue := [] ++ q }
        simp

theorem PopR_none_agree {q1 q2 : List QEntry} (hperm : q1.Perm q2)
    (hR : PopR q1 none) : popMin q2 = none := by
  cases hR
  have : q2 = [] := hperm.symm.eq_nil
  subst this
  rfl

theorem PopR_some_agree {q1 q2 : List QEntry} {e1 : QEntry}
    {rest1 : List QEntry} (hperm : q1.Perm q2)
    (hnd : (q2.map QEntry.cnt).Nodup) (hR : PopR q1 (some (e1, rest1))) :
    ∃ rest2, popMin q2 = some (e1, rest2) ∧ rest1.Perm rest2 := by
  cases hR with
  | found e q rest hm hmin hp =>
    cases hq2 : popMin q2 with
    | none =>
      have : q2 = [] := popMin_eq_none hq2
      subst this
      exact absurd (hperm.subset hm) (by simp)
    | some pr =>
      obtain ⟨e2, rest2⟩ := pr
      have hm2 : e2 ∈ q2 := (popMin_perm hq2).symm.subset (List.mem_cons_self _ _)
      have h12 : qLe e1 e2 := hmin e2 (hperm.symm.subset hm2)
      have h21 : qLe e2 e1 := popMin_min hq2 e1 (hperm.subset hm)
      have htriple := qLe_antisymm h12 h21
      have he : e1 = e2 :=
        List.inj_on_of_nodup_map hnd (hperm.subset hm) hm2 htriple.2.2
      subst he
      refine ⟨rest2, rfl, ?_⟩
      have hchain : (e1 :: rest1).Perm (e1 :: rest2) :=
        (hp.symm.trans hperm).trans (popMin_perm hq2)
      exact hchain.cons_inv

theorem execEntry_simQ (p : Policy) (a : SchedState) (q : List QEntry)
    (e : QEntry) (r1 r2 : List QEntry) (hr : r1.Perm r2) :
    Sim (execEntry p { a with ready_queue := q } e r1) (execEntry p a e r2) := by
  unfold execEntry
  dsimp only
  by_cases hc : (taskAt a.tasks e.idx).remaining_time - 1 = 0
  · rw [if_pos hc, if_pos hc]
    exact ⟨rfl, rfl, rfl, rfl, rfl, rfl, rfl, hr⟩
  · rw [if_neg hc, if_neg hc]
    dsimp only [pushEntry]
    exact ⟨rfl, rfl, rfl, rfl, rfl, rfl, rfl, List.Perm.cons _ hr⟩

theorem stepR_sim (p : Policy) (b a s' : SchedState) (hsim : Sim b a)
    (hInv : Inv p a) (hstep : stepR p b s') : Sim s' (step p a) := by
  obtain ⟨r, hR, hs'⟩ := hstep
  subst hs'
  have hb := Sim_struct hsim
  rw [hb] at hR ⊢
  have hfuel : ({ a with ready_queue := b.ready_queue } : SchedState).tasks.length -
      ({ a with ready_queue := b.ready_queue } : SchedState).taskIdx =
      a.tasks.length - a.taskIdx := rfl
  obtain ⟨pre, hpre1, hpre2⟩ :=
    admitAux_qpre p (a.tasks.length - a.taskIdx) a b.ready_queue
  have hadm : admitArrivals p { a with ready_queue := b.ready_queue } =
      { admitArrivals p a with ready_queue := pre ++ b.ready_queue } := by
    unfold admitArrivals
    rw [hfuel]
    exact hpre2
  rw [hadm] at hR ⊢
  have hqperm : (pre ++ b.ready_queue).Perm ((admitArrivals p a).ready_queue) := by
    show (pre ++ b.ready_queue).Perm
      (admitAux p (a.tasks.length - a.taskIdx) a).ready_queue
    rw [hpre1]
    exact List.Perm.append_left pre hsim.2.2.2.2.2.2.2
  have hnd : (((admitArrivals p a).ready_queue).map QEntry.cnt).Nodup :=
    (Inv_admitted p a hInv).hQCntNodup
  cases r with
  | none =>
    have hnone : popMin ((admitArrivals p a).ready_queue) = none :=
      PopR_none_agree hqperm hR
    unfold step
    simp only []
    rw [hnone]
    exact ⟨rfl, rfl, rfl, rfl, rfl, rfl, rfl, hqperm⟩
  | some pr =>
    obtain ⟨e1, rest1⟩ := pr
    obtain ⟨rest2, hq2, hrperm⟩ := PopR_some_agree hqperm hnd hR
    unfold step
    simp only []
    rw [hq2]
    exact execEntry_simQ p (admitArrivals p a) (pre ++ b.ready_queue) e1 rest1
      rest2 hrperm

theorem stepsR_sim (p : Policy) (n : Nat) (b a out : SchedState)
    (hsim : Sim b a) (hInv : Inv p a) (hsteps : stepsR p n b out) :
    Sim out (steps p n a) := by
  induction hsteps generalizing a with
  | zero s => exact hsim
  | succ n s s' s'' hstep _ ih =>
    show Sim s'' (steps p n (step p a))
    exact ih (step p a) (stepR_sim p s a s' hsim hInv hstep) (Inv_step p a hInv)

theorem stepsR_self (p : Policy) (n : Nat) (s : SchedState) :
    stepsR p n s (steps p n s) := by
  induction n generalizing s with
  | zero => exact stepsR.zero s
  | succ n ih =>
    exact stepsR.succ n s (step p s) (steps p n (step p s))
      ⟨popMin (admitArrivals p s).ready_queue, popMin_PopR _, rfl⟩ (ih (step p s))

theorem run_RunR (p : Policy) (specs : List TaskSpec) (m : Nat) :
    RunR p specs m (run p specs m) :=
  stepsR_self p m (initState specs)

theorem RunR_sim (p : Policy) (specs : List TaskSpec) (m : Nat)
    (out : SchedState) (h : RunR p specs m out) : Sim out (run p specs m) :=
  stepsR_sim p m (initState specs) (initState specs) out
    ⟨rfl, rfl, rfl, rfl, rfl, rfl, rfl, List.Perm.refl _⟩ (Inv_init p specs) h

/-! ### Lifted conditional invariants and further helpers -/

theorem CInv_steps (p : Policy) (k : Nat) (s : SchedState) (hInv : Inv p s)
    (hC : CInv s) : CInv (steps p k s) := by
  induction k generalizing s with
  | zero => exact hC
  | succ k ih =>
    show CInv (steps p k (step p s))
    exact ih (step p s) (Inv_step p s hInv) (CInv_step p s hInv hC)

theorem GoodIds_steps (p : Policy) (k : Nat) (s : SchedState) (h : GoodIds s) :
    GoodIds (steps p k s) := by
  induction k generalizing s with
  | zero => exact h
  | succ k ih =>
    show GoodIds (steps p k (step p s))
    exact ih (step p s) (GoodIds_step p s h)

theorem DInv_steps (p : Policy) (k : Nat) (s : SchedState) (hInv : Inv p s)
    (hIds : GoodIds s) (hD : DInv s) : DInv (steps p k s) := by
  induction k generalizing s with
  | zero => exact hD
  | succ k ih =>
    show DInv (steps p k (step p s))
    exact ih (step p s) (Inv_step p s hInv) (GoodIds_step p s hIds)
      (DInv_step p s hInv hIds hD)

theorem taskAt_of_mem (l : List Task) (t : Task) (h : t ∈ l) :
    ∃ i, i < l.length ∧ taskAt l i = t := by
  induction l with
  | nil => simp at h
  | cons a l ih =>
    rcases List.mem_cons.mp h with h | h
    · exact ⟨0, by simp, h.symm⟩
    · obtain ⟨i, hi, ht⟩ := ih h
      exact ⟨i + 1, by simpa using hi, ht⟩

theorem pairwise_ne_of_nodup_map {α β : Type} (f : α → β) (l : List α)
    (h : (l.map f).Nodup) : l.Pairwise (fun a b => f a ≠ f b) := by
  induction l with
  | nil => exact List.Pairwise.nil
  | cons a l ih =>
    simp only [List.map, List.nodup_cons] at h
    refine List.pairwise_cons.mpr ⟨?_, ih h.2⟩
    intro b hb hc
    exact h.1 (hc ▸ List.mem_map_of_mem f hb)

theorem run_hist_len (p : Policy) (specs : List TaskSpec) (m : Nat) :
    (run p specs m).history.length = m := by
  obtain ⟨l, hl, hlen⟩ := steps_hist_append p m (initState specs)
  show (steps p m (initState specs)).history.length = m
  rw [hl]
  simp [hlen, initState]

theorem run_time (p : Policy) (specs : List TaskSpec) (m : Nat) :
    (run p specs m).time = m := by
  show (steps p m (initState specs)).time = m
  rw [steps_time]
  show 0 + m = m
  omega

theorem map_id_run (p : Policy) (specs : List TaskSpec) (m : Nat) :
    (run p specs m).tasks.map Task.task_id =
      (sortByArrival (specs.map mkTask)).map Task.task_id := by
  have h := steps_map_immut p m (initState specs)
  have h2 := congrArg
    (List.map (fun x : String × Int × Int × Int × Int × Int => x.1)) h
  rw [List.map_map, List.map_map] at h2
  exact h2

theorem map_arrival_run (p : Policy) (specs : List TaskSpec) (m : Nat) :
    (run p specs m).tasks.map Task.arrival_time =
      (sortByArrival (specs.map mkTask)).map Task.arrival_time := by
  have h := steps_map_immut p m (initState specs)
  have h2 := congrArg
    (List.map (fun x : String × Int × Int × Int × Int × Int => x.2.1)) h
  rw [List.map_map, List.map_map] at h2
  exact h2

theorem initTasks_map_id (specs : List TaskSpec) :
    ((specs.map mkTask).map Task.task_id) = specs.map TaskSpec.id := by
  rw [List.map_map]
  rfl

theorem GoodIds_init (specs : List TaskSpec)
    (hN : (specs.map TaskSpec.id).Nodup)
    (hI : ∀ sp ∈ specs, sp.id ≠ "IDLE") : GoodIds (initState specs) := by
  constructor
  · show ((sortByArrival (specs.map mkTask)).map Task.task_id).Nodup
    have hp := (sortByArrival_perm (specs.map mkTask)).map Task.task_id
    rw [hp.nodup_iff, initTasks_map_id]
    exact hN
  · intro t ht
    have hm := (sortByArrival_perm _).subset ht
    obtain ⟨sp, hsp, rfl⟩ := List.mem_map.mp hm
    exact hI sp hsp

theorem CInv_init (specs : List TaskSpec)
    (hB : ∀ sp ∈ specs, 0 < sp.burst) : CInv (initState specs) := by
  intro i hlen
  dsimp only [initState] at hlen ⊢
  have hm := (sortByArrival_perm (specs.map mkTask)).subset
    (taskAt_mem _ i hlen)
  obtain ⟨sp, hsp, hsp2⟩ := List.mem_map.mp hm
  rw [← hsp2]
  refine ⟨hB sp hsp, Int.le_of_lt (hB sp hsp), ?_⟩
  intro hc
  exact absurd hc (by have := hB sp hsp; show ¬((mkTask sp).remaining_time = 0); show ¬(sp.burst = 0); omega)

theorem DInv_init (specs : List TaskSpec) : DInv (initState specs) := by
  intro i hlen
  dsimp only [initState] at hlen ⊢
  unfold countId
  simp only [List.countP_nil]
  have hm := (sortByArrival_perm (specs.map mkTask)).subset
    (taskAt_mem _ i hlen)
  obtain ⟨sp, _, hsp2⟩ := List.mem_map.mp hm
  rw [← hsp2]
  show sp.burst = sp.burst - (0 : Int)
  omega

/-! ### Claim theorems -/

/-- C1 counterexample: in the core engine (`scheduler.py`), a task whose
absolute deadline (1) is strictly exceeded while work remains (remaining
time 8 at simulated time 2) is never flagged and the miss counter stays 0,
because `Scheduler.run` has no per-unit deadline check; and in the CLI
engine (`main.py`), a task flagged mid-run and then completing late
increments the miss counter twice (counter 2, flagged tasks 1). -/
theorem c1_counterexample :
    (taskAt (run Policy.EDF [⟨"T1", 0, 10, 1, 0⟩] 3).tasks 0).missed_deadline =
      false ∧
    (run Policy.EDF [⟨"T1", 0, 10, 1, 0⟩] 3).missed_deadlines = 0 ∧
    (taskAt (steps Policy.EDF 2
      (initState [⟨"T1", 0, 10, 1, 0⟩])).tasks 0).remaining_time = 8 ∧
    ((2 : Int) >
      (taskAt (run Policy.EDF [⟨"T1", 0, 10, 1, 0⟩] 3).tasks 0).absolute_deadline) ∧
    (steps Policy.EDF 2 (initState [⟨"T1", 0, 10, 1, 0⟩])).time = 2 ∧
    (CLI.run_scheduler [CLI.mkCTask 1 2 5 0,
      CLI.mkCTask 2 5 3 0]).missed_deadlines_count = 2 ∧
    ((CLI.run_scheduler [CLI.mkCTask 1 2 5 0,
      CLI.mkCTask 2 5 3 0]).tasks.countP (fun t => t.missed_deadline)) = 1 := by
  decide

/-- C1 amended: in the core engine a task's `missed_deadline` flag is true
after a run iff the task completed (completion time set) with completion
time strictly greater than its absolute deadline; tasks that never complete
are never flagged, and the miss counter equals the number of flagged tasks,
so each flagged task is counted exactly once. -/
theorem c1_missed_iff_late_completion (p : Policy) (specs : List TaskSpec)
    (m : Nat) :
    (∀ i, i < (run p specs m).tasks.length →
      ((taskAt (run p specs m).tasks i).missed_deadline = true ↔
        ((taskAt (run p specs m).tasks i).completion_time ≠ -1 ∧
          (taskAt (run p specs m).tasks i).completion_time >
            (taskAt (run p specs m).tasks i).absolute_deadline))) ∧
    (run p specs m).missed_deadlines =
      (run p specs m).tasks.countP (fun t => t.missed_deadline) :=
  ⟨(Inv_run p specs m).hMiss, (Inv_run p specs m).hCount⟩

/-- C1 witness: a task with burst 2 and relative deadline 1 completes at
time 2 > 1 and is flagged. -/
theorem c1_missed_iff_late_completion_witness :
    (taskAt (run Policy.EDF [⟨"T1", 0, 2, 1, 0⟩] 2).tasks 0).missed_deadline =
      true :=
  ((c1_missed_iff_late_completion Policy.EDF [⟨"T1", 0, 2, 1, 0⟩] 2).1 0
    (by decide)).mpr (by decide)

/-- C2 counterexample: the spec-modelled validating constructor rejects a
zero burst time, but the actual `Task.__init__` accepts it and returns a
fully formed task (no error is possible: construction is a total
function). -/
theorem c2_counterexample :
    mkTaskChecked ⟨"T", 0, 0, 5, 0⟩ = Except.error TaskError.InvalidTask ∧
    mkTask ⟨"T", 0, 0, 5, 0⟩ = ⟨"T", 0, 0, 0, 5, 0, 5, -1, -1, false⟩ :=
  ⟨by rfl, rfl⟩

/-- C2 amended: construction never fails — `mkTask` is total and assigns
the fields exactly as given (including non-positive burst or deadline and
negative arrival), and the spec-modelled checked constructor agrees with it
precisely on the inputs the spec calls valid. -/
theorem c2_construction_total (sp : TaskSpec) :
    (mkTask sp).task_id = sp.id ∧ (mkTask sp).remaining_time = sp.burst ∧
    (mkTask sp).absolute_deadline = sp.arrival + sp.dl ∧
    (mkTask sp).missed_deadline = false ∧
    (mkTaskChecked sp = Except.ok (mkTask sp) ↔
      (0 < sp.burst ∧ 0 < sp.dl ∧ 0 ≤ sp.arrival)) := by
  refine ⟨rfl, rfl, rfl, rfl, ?_⟩
  unfold mkTaskChecked
  by_cases hc : sp.burst ≤ 0 ∨ sp.dl ≤ 0 ∨ sp.arrival < 0
  · rw [if_pos hc]
    constructor
    · intro h
      exact Except.noConfusion h
    · intro h
      omega
  · rw [if_neg hc]
    constructor
    · intro _
      omega
    · intro _
      rfl

/-- C2 witness: a valid parameter set is accepted by both constructors. -/
theorem c2_construction_total_witness :
    mkTaskChecked ⟨"T", 0, 3, 5, 0⟩ = Except.ok (mkTask ⟨"T", 0, 3, 5, 0⟩) :=
  (c2_construction_total ⟨"T", 0, 3, 5, 0⟩).2.2.2.2.mpr (by decide)

/-- C3 counterexample: with a single task of burst 1 every task is complete
after the first unit (remaining 0, completion time 1), yet with
`max_time = 3` the loop keeps running and appends idle entries for units 1
and 2 — the loop does not stop when all tasks complete. -/
theorem c3_counterexample :
    ((steps Policy.EDF 1 (initState [⟨"T1", 0, 1, 5, 0⟩])).tasks.all
      (fun t => decide (t.remaining_time = 0))) = true ∧
    (taskAt (steps Policy.EDF 1
      (initState [⟨"T1", 0, 1, 5, 0⟩])).tasks 0).completion_time = 1 ∧
    (run Policy.EDF [⟨"T1", 0, 1, 5, 0⟩] 3).history =
      [(0, 1, "T1"), (1, 2, "IDLE"), (2, 3, "IDLE")] := by
  decide

/-- C3 amended: the loop runs exactly `max_time` iterations regardless of
completions (one history entry per unit and final time `max_time`); tasks
still incomplete at that point keep an unset completion time — they are not
force-completed. -/
theorem c3_loop_runs_full (p : Policy) (specs : List TaskSpec) (m : Nat) :
    (run p specs m).history.length = m ∧ (run p specs m).time = m ∧
    ∀ t ∈ (run p specs m).tasks, t.remaining_time ≠ 0 →
      t.completion_time = -1 := by
  refine ⟨run_hist_len p specs m, run_time p specs m, ?_⟩
  intro t ht hrem
  obtain ⟨i, hi, rfl⟩ := taskAt_of_mem _ t ht
  by_contra hc
  exact hrem ((Inv_run p specs m).hRem0 i hi hc)

/-- C3 witness: a task with burst 5 is incomplete after one unit and its
completion time is unset. -/
theorem c3_loop_runs_full_witness :
    (taskAt (run Policy.EDF [⟨"T1", 0, 5, 2, 0⟩] 1).tasks 0).completion_time =
      -1 :=
  (c3_loop_runs_full Policy.EDF [⟨"T1", 0, 5, 2, 0⟩] 1).2.2
    (taskAt (run Policy.EDF [⟨"T1", 0, 5, 2, 0⟩] 1).tasks 0) (by decide)
    (by decide)

/-- C4: for the EDF policy on T1(arrival 0, burst 3, relative deadline 10)
and T2(arrival 1, burst 2, relative deadline 4) and any `max_time ≥ 5`, the
first five history entries are exactly (0,1,T1), (1,2,T2), (2,3,T2),
(3,4,T1), (4,5,T1): T2 preempts T1 at unit 1 because its absolute deadline
5 is earlier than T1's 10. -/
theorem c4_edf_preemption_prefix (m : Nat) (hm : 5 ≤ m) :
    (run Policy.EDF [⟨"T1", 0, 3, 10, 0⟩, ⟨"T2", 1, 2, 4, 0⟩] m).history.take 5 =
      [((0 : Int), (1 : Int), "T1"), (1, 2, "T2"), (2, 3, "T2"), (3, 4, "T1"),
        (4, 5, "T1")] := by
  have hm5 : m = 5 + (m - 5) := by omega
  rw [hm5]
  show (steps Policy.EDF (5 + (m - 5))
    (initState [⟨"T1", 0, 3, 10, 0⟩, ⟨"T2", 1, 2, 4, 0⟩])).history.take 5 = _
  rw [steps_add]
  obtain ⟨l, hl, _⟩ := steps_hist_append Policy.EDF (m - 5)
    (steps Policy.EDF 5 (initState [⟨"T1", 0, 3, 10, 0⟩, ⟨"T2", 1, 2, 4, 0⟩]))
  rw [hl]
  have h5 : (steps Policy.EDF 5
      (initState [⟨"T1", 0, 3, 10, 0⟩, ⟨"T2", 1, 2, 4, 0⟩])).history =
      [((0 : Int), (1 : Int), "T1"), (1, 2, "T2"), (2, 3, "T2"), (3, 4, "T1"),
        (4, 5, "T1")] := by decide
  rw [h5]
  rfl

/-- C4 witness: the property instantiated at `max_time = 5`. -/
theorem c4_edf_preemption_prefix_witness :
    5 ≤ 5 ∧
    (run Policy.EDF [⟨"T1", 0, 3, 10, 0⟩, ⟨"T2", 1, 2, 4, 0⟩] 5).history.take 5 =
      [((0 : Int), (1 : Int), "T1"), (1, 2, "T2"), (2, 3, "T2"), (3, 4, "T1"),
        (4, 5, "T1")] :=
  ⟨by decide, c4_edf_preemption_prefix 5 (by decide)⟩

/-- C5: the history of every run has exactly one entry per simulated unit,
covering units 0..max_time-1 in order: the j-th entry starts at j, ends at
j+1, and carries either the idle sentinel or the identifier of a task of
the run. -/
theorem c5_history_covers (p : Policy) (specs : List TaskSpec) (m : Nat) :
    (run p specs m).history.length = m ∧
    ∀ j (h : j < (run p specs m).history.length),
      ((run p specs m).history.get ⟨j, h⟩).1 = (j : Int) ∧
      ((run p specs m).history.get ⟨j, h⟩).2.1 = (j : Int) + 1 ∧
      (((run p specs m).history.get ⟨j, h⟩).2.2 = "IDLE" ∨
        ((run p specs m).history.get ⟨j, h⟩).2.2 ∈
          (run p specs m).tasks.map Task.task_id) :=
  ⟨run_hist_len p specs m, fun j h => (Inv_run p specs m).hHist j h⟩

/-- C5 witness: the single entry of a one-unit run covers [0,1). -/
theorem c5_history_covers_witness :
    (run Policy.EDF [⟨"T1", 0, 1, 5, 0⟩] 1).history.length = 1 ∧
    ((run Policy.EDF [⟨"T1", 0, 1, 5, 0⟩] 1).history.get ⟨0, by decide⟩).1 = 0 :=
  ⟨(c5_history_covers Policy.EDF [⟨"T1", 0, 1, 5, 0⟩] 1).1,
    (((c5_history_covers Policy.EDF [⟨"T1", 0, 1, 5, 0⟩] 1).2 0 (by decide))).1⟩

/-- C6: extraction returns a minimum entry of the queue under the
lexicographic order on (priority key, arrival, insertion counter), and when
priority key and arrival tie, the entry with the strictly smaller insertion
counter is extracted first (counters are distinct in any reachable queue,
see C10). -/
theorem c6_extraction_min (q : List QEntry) (e : QEntry) (rest : List QEntry)
    (hpop : popMin q = some (e, rest))
    (hnd : (q.map QEntry.cnt).Nodup) :
    q.Perm (e :: rest) ∧ (∀ x ∈ q, qLe e x) ∧
    (∀ x ∈ rest, x.key = e.key → x.arr = e.arr → e.cnt < x.cnt) := by
  have hperm := popMin_perm hpop
  refine ⟨hperm, popMin_min hpop, ?_⟩
  intro x hx hkey harr
  have hxq : x ∈ q := hperm.symm.subset (List.mem_cons_of_mem e hx)
  have heq : e ∈ q := hperm.symm.subset (List.mem_cons_self e rest)
  have hle : qLe e x := popMin_min hpop x hxq
  have hne : x ≠ e := by
    intro hc
    subst hc
    have hnd2 : ((x :: rest).map QEntry.cnt).Nodup :=
      (hperm.map QEntry.cnt).nodup_iff.mp hnd
    simp only [List.map, List.nodup_cons] at hnd2
    exact hnd2.1 (List.mem_map_of_mem QEntry.cnt hx)
  have hcne : e.cnt ≠ x.cnt := by
    intro hc
    exact hne (List.inj_on_of_nodup_map hnd hxq heq hc.symm)
  unfold qLe at hle
  omega

/-- C6 witness: two entries with equal key and arrival; the one inserted
first (counter 0) is extracted before the one inserted later (counter 1). -/
theorem c6_extraction_min_witness :
    popMin [⟨5, 0, 1, 0⟩, (⟨5, 0, 0, 1⟩ : QEntry)] =
      some (⟨5, 0, 0, 1⟩, [⟨5, 0, 1, 0⟩]) ∧
    (⟨5, 0, 0, 1⟩ : QEntry).cnt < (⟨5, 0, 1, 0⟩ : QEntry).cnt :=
  ⟨by decide,
    (c6_extraction_min [⟨5, 0, 1, 0⟩, ⟨5, 0, 0, 1⟩] ⟨5, 0, 0, 1⟩
      [⟨5, 0, 1, 0⟩] (by decide) (by decide)).2.2 ⟨5, 0, 1, 0⟩ (by decide)
      (by decide) (by decide)⟩

/-- C7: the run is deterministic — any two complete runs under the
relational semantics (where extraction may return any minimal heap entry)
from identically-constructed task sets, the same policy and the same
max_time produce identical histories, completed lists, miss counts and
final task states. -/
theorem c7_run_deterministic (p : Policy) (specs : List TaskSpec) (m : Nat)
    (o₁ o₂ : SchedState) (h₁ : RunR p specs m o₁) (h₂ : RunR p specs m o₂) :
    o₁.history = o₂.history ∧ o₁.completed_tasks = o₂.completed_tasks ∧
    o₁.missed_deadlines = o₂.missed_deadlines ∧ o₁.tasks = o₂.tasks := by
  have s₁ := RunR_sim p specs m o₁ h₁
  have s₂ := RunR_sim p specs m o₂ h₂
  refine ⟨?_, ?_, ?_, ?_⟩
  · rw [s₁.2.2.2.1, s₂.2.2.2.1]
  · rw [s₁.2.2.2.2.1, s₂.2.2.2.2.1]
  · rw [s₁.2.2.2.2.2.1, s₂.2.2.2.2.2.1]
  · rw [s₁.2.1, s₂.2.1]

/-- C7 witness: the deterministic function `run` realizes the relational
semantics, so the theorem applies to it. -/
theorem c7_run_deterministic_witness :
    (run Policy.EDF [⟨"T1", 0, 1, 2, 0⟩] 1).history =
      (run Policy.EDF [⟨"T1", 0, 1, 2, 0⟩] 1).history :=
  (c7_run_deterministic Policy.EDF [⟨"T1", 0, 1, 2, 0⟩] 1 _ _
    (run_RunR Policy.EDF [⟨"T1", 0, 1, 2, 0⟩] 1)
    (run_RunR Policy.EDF [⟨"T1", 0, 1, 2, 0⟩] 1)).1

/-- C8 counterexample: the unvalidated constructor admits a zero-burst
task; executing it drives its remaining time negative (-2 after two units),
so "remaining time after a run is ≥ 0" fails on the code as stated for
arbitrary runs. -/
theorem c8_counterexample :
    (taskAt (run Policy.EDF [⟨"T1", 0, 0, 5, 0⟩] 2).tasks 0).remaining_time =
      -2 ∧
    ¬(0 ≤ (taskAt (run Policy.EDF [⟨"T1", 0, 0, 5, 0⟩] 2).tasks 0).remaining_time) := by
  decide

/-- C8 amended: for task sets that satisfy the spec's data model (positive
burst times, pairwise-distinct identifiers, no identifier equal to the idle
sentinel), after any run each task's remaining time is ≥ 0 and equals its
burst time minus the number of history entries bearing its identifier, it
is zero exactly when the task completed, and remaining time is monotonically
non-increasing over the run. -/
theorem c8_remaining_time (p : Policy) (specs : List TaskSpec) (m : Nat)
    (hB : ∀ sp ∈ specs, 0 < sp.burst)
    (hN : (specs.map TaskSpec.id).Nodup)
    (hI : ∀ sp ∈ specs, sp.id ≠ "IDLE") :
    ∀ i, i < (run p specs m).tasks.length →
      0 ≤ (taskAt (run p specs m).tasks i).remaining_time ∧
      (taskAt (run p specs m).tasks i).remaining_time =
        (taskAt (run p specs m).tasks i).burst_time -
          (countId (taskAt (run p specs m).tasks i).task_id
            (run p specs m).history : Int) ∧
      ((taskAt (run p specs m).tasks i).remaining_time = 0 ↔
        (taskAt (run p specs m).tasks i).completion_time ≠ -1) ∧
      ∀ k k', k ≤ k' → k' ≤ m →
        (taskAt (steps p k' (initState specs)).tasks i).remaining_time ≤
          (taskAt (steps p k (initState specs)).tasks i).remaining_time := by
  intro i hlen
  have hInv := Inv_run p specs m
  have hC := CInv_steps p m (initState specs) (Inv_init p specs)
    (CInv_init specs hB)
  have hD := DInv_steps p m (initState specs) (Inv_init p specs)
    (GoodIds_init specs hN hI) (DInv_init specs)
  refine ⟨(hC i hlen).2.1, hD i hlen,
    ⟨fun h0 => (hC i hlen).2.2 h0, fun hc => hInv.hRem0 i hlen hc⟩, ?_⟩
  intro k k' hkk hk'm
  have hsplit : k' = k + (k' - k) := by omega
  rw [hsplit, steps_add]
  exact rem_steps_le p (k' - k) (steps p k (initState specs))
    (Inv_steps p k (initState specs) (Inv_init p specs)) i

/-- C8 witness: a well-formed single-task set after a two-unit run. -/
theorem c8_remaining_time_witness :
    0 ≤ (taskAt (run Policy.EDF [⟨"T1", 0, 1, 5, 0⟩] 2).tasks 0).remaining_time :=
  (c8_remaining_time Policy.EDF [⟨"T1", 0, 1, 5, 0⟩] 2 (by decide) (by decide)
    (by decide) 0 (by decide)).1

/-- C9: `run` reorders the caller-supplied task sequence: after a run the
task list is in ascending arrival-time order (a permutation of the
constructed tasks on all immutable fields, equal to the stable arrival sort
of the input), which differs from the supplied order for some inputs. -/
theorem c9_tasks_sorted_in_place (p : Policy) (specs : List TaskSpec)
    (m : Nat) :
    ((run p specs m).tasks.map Task.arrival_time).Pairwise (fun a b => a ≤ b) ∧
    ((run p specs m).tasks.map immut).Perm ((specs.map mkTask).map immut) ∧
    (run p specs m).tasks.map Task.task_id =
      (sortByArrival (specs.map mkTask)).map Task.task_id ∧
    ∃ specs2 : List TaskSpec, ∃ m2 : Nat,
      (run p specs2 m2).tasks.map Task.task_id ≠
        (specs2.map mkTask).map Task.task_id := by
  refine ⟨?_, ?_, map_id_run p specs m, ?_⟩
  · rw [map_arrival_run]
    rw [List.pairwise_map]
    exact sortByArrival_sorted (specs.map mkTask)
  · show ((steps p m (initState specs)).tasks.map immut).Perm _
    rw [steps_map_immut]
    exact (sortByArrival_perm (specs.map mkTask)).map immut
  · refine ⟨[⟨"B", 1, 1, 5, 0⟩, ⟨"A", 0, 1, 5, 0⟩], 0, ?_⟩
    show (initState [⟨"B", 1, 1, 5, 0⟩, ⟨"A", 0, 1, 5, 0⟩]).tasks.map
      Task.task_id ≠ _
    decide

/-- C10: in every reachable scheduler state all queued entries carry
pairwise-distinct insertion counters, each strictly below the next counter
to be assigned, hence all queued (priority, arrival, counter) triples are
pairwise distinct and tuple comparison is settled before ever comparing the
task objects themselves. -/
theorem c10_counter_distinct (p : Policy) (specs : List TaskSpec) (k : Nat) :
    (∀ e ∈ (steps p k (initState specs)).ready_queue,
      e.cnt < (steps p k (initState specs)).task_counter) ∧
    ((steps p k (initState specs)).ready_queue.map QEntry.cnt).Nodup ∧
    (steps p k (initState specs)).ready_queue.Pairwise
      (fun a b => (a.key, a.arr, a.cnt) ≠ (b.key, b.arr, b.cnt)) := by
  have hInv := Inv_steps p k (initState specs) (Inv_init p specs)
  refine ⟨hInv.hQCnt, hInv.hQCntNodup, ?_⟩
  have hp := pairwise_ne_of_nodup_map QEntry.cnt _ hInv.hQCntNodup
  exact hp.imp (fun hne hteq => hne (congrArg (fun x => x.2.2) hteq))

/-- C10 witness: after one unit the re-inserted task carries the fresh
counter 1, strictly below the next counter 2. -/
theorem c10_counter_distinct_witness :
    (⟨5, 0, 1, 0⟩ : QEntry).cnt <
      (steps Policy.EDF 1 (initState [⟨"T1", 0, 2, 5, 0⟩])).task_counter :=
  (c10_counter_distinct Policy.EDF [⟨"T1", 0, 2, 5, 0⟩] 1).1 ⟨5, 0, 1, 0⟩
    (by decide)

end RTScheduler
